import Mathlib

/-!
# log4j-sniffer: bytecode signature matcher and jar naming heuristic

A shallow embedding of `pkg/crawl/signatures.go` (the exact/partial signature
matcher) and of `AveragePackageAndClassLength` from `pkg/java/jar.go`, followed
by theorems about them.

Conventions of the embedding:
* a Go `[]byte` and a Go `string` used for its bytes are a `List Byte`, a byte being a
  natural number (only equality of bytes is ever used);
* the sentinel `matchIndex := -1` is `none`, an index `i` is `some i`;
* a Go `map` is an association list with unique keys; the order in which `range`
  visits the keys of a map is not fixed by the language, so it is an explicit argument
  `order` of the functions that range over a map, constrained by `IterationOrder`;
* the matcher is embedded twice: first with total index reads (`getD`), then with every
  index checked as the run time checks it (`none` is a panic); the second embedding is
  proved to return the result of the first on every input.
-/

namespace Log4jSniffer

/-- A byte of method bytecode or of a file name. -/
abbrev Byte := Nat

/-! ## Go maps -/

/-- Lookup `m[k]` with presence information. -/
def mapGet {β : Type} (m : List (String × β)) (k : String) : Option β :=
  match m with
  | [] => none
  | (k', v) :: rest => if k' = k then some v else mapGet rest k

/-- Assignment `m[k] = v`: overwrite the entry of an existing key, else add the key. -/
def mapSet {β : Type} (m : List (String × β)) (k : String) (v : β) : List (String × β) :=
  match m with
  | [] => [(k, v)]
  | (k', v') :: rest => if k' = k then (k, v) :: rest else (k', v') :: mapSet rest k v

/-- The keys of a map. -/
def mapKeys {β : Type} (m : List (String × β)) : List String :=
  m.map Prod.fst

/-- An `order` is a possible order of visit of `range m`: every key exactly once. -/
def IterationOrder {β : Type} (order : List String) (m : List (String × β)) : Prop :=
  order.Perm (mapKeys m)

/-! ## Library functions used by the code -/

/-- The function `bytes.Compare`: lexicographic comparison, `0` exactly on equal slices. -/
def bytesCompare : List Byte → List Byte → Int
  | [], [] => 0
  | [], _ :: _ => -1
  | _ :: _, [] => 1
  | a :: as, b :: bs => if a < b then -1 else if b < a then 1 else bytesCompare as bs

/-! ## Data model of `signatures.go` -/

structure partialMethodMatchSignature where
  Prefix : List Byte
  Suffix : List Byte
deriving DecidableEq, Repr

structure partialBytecodeSignature where
  Version : String
  PartialMatches : List partialMethodMatchSignature
deriving DecidableEq, Repr

structure exactMatch where
  Versions : List String
  Match : List Byte
deriving DecidableEq, Repr

/-- Modelled from the spec: the constant `UnknownVersion` of package `crawl` is declared
outside the two source files; the spec calls the result "unknown". -/
def UnknownVersion : String := "unknown"

def exactMatches : List exactMatch := [
  { Versions := ["2.16.0", "2.15.0"],
    Match := [0x2a, 0x01, 0x2b, 0xb7, 0x2a, 0x2c, 0xb5, 0x2a, 0x2d, 0xb5, 0x2a, 0x19, 0xb5, 0x2a, 0x19, 0xb5, 0xb1] },
  { Versions := ["2.16.0"],
    Match := [0x2a, 0x01, 0x2b, 0xb7, 0x2a, 0x01, 0xb5, 0x2a, 0x01, 0xb5, 0x2a, 0x01, 0xb5, 0x2a, 0x01, 0xb5, 0xb1] },
  { Versions := ["2.16.0"],
    Match := [0x2a, 0xb4, 0xc6, 0x2a, 0xb4, 0xb8, 0xac, 0x04, 0xac] },
  { Versions := ["2.16.0", "2.15.0"],
    Match := [0x2a, 0x2b, 0x2c, 0x2d, 0x19, 0x19, 0xb7, 0xb1] },
  { Versions := ["2.9.0-2.14.1", "2.17.0", "2.12.2", "2.8.2"],
    Match := [0x2a, 0x01, 0x2b, 0xb7, 0x2a, 0x2c, 0xb5, 0xb1] },
  { Versions := ["2.9.0-2.14.1", "2.16.0", "2.15.0", "2.17.0", "2.8.2"],
    Match := [0x12, 0xb6, 0xb2, 0x01, 0xb8, 0xc0, 0xb0] },
  { Versions := ["2.1-2.8.1"],
    Match := [0x2a, 0x2b, 0xb7, 0x2a, 0x2c, 0xb5, 0xb1] },
  { Versions := ["2.9.0-2.14.1", "2.8.2", "2.1-2.8.1"],
    Match := [0x2a, 0xb4, 0x2b, 0xb9, 0xb0] },
  { Versions := ["2.9.0-2.14.1", "2.17.0", "2.12.2", "2.8.2", "2.1-2.8.1"],
    Match := [0x2a, 0x2b, 0x2c, 0xb7, 0xb1] },
  { Versions := ["2.16.0", "2.12.2"],
    Match := [0xb8, 0x12, 0x03, 0xb6, 0xac] },
  { Versions := ["2.9.0-2.14.1", "2.15.0", "2.17.0", "2.12.2", "2.8.2"],
    Match := [0x2a, 0xb4, 0xb8, 0xac] },
  { Versions := ["2.16.0"],
    Match := [0x2a, 0x2b, 0xb7, 0xb1] },
  { Versions := ["2.17.0"],
    Match := [0x12, 0xb8, 0xac] } ]

/-- The map `partialBytecodeSignatures`; the field `Version` is left at its zero value by
the composite literals of the source. -/
def partialBytecodeSignatures : List (String × partialBytecodeSignature) := [
  ("2.9.0-2.14.1", { Version := "", PartialMatches := [
    { Prefix := [0xbb, 0x59],
      Suffix := [0x2a, 0xb4, 0xb6, 0x12, 0xb6, 0x2a, 0xb4, 0xb6, 0x12, 0xb6, 0xb6, 0xb0] },
    { Prefix := [0xbb, 0x59],
      Suffix := [0xb7, 0xb3, 0xb1] } ] }),
  ("2.16.0", { Version := "", PartialMatches := [
    { Prefix := [0x2a, 0xb4, 0xc7, 0x01, 0xb0, 0xbb, 0x59, 0x2b, 0xb7],
      Suffix := [0xb2, 0x12, 0x2b, 0xb9, 0x01, 0xb0, 0x2a, 0xb4, 0x2b, 0xb9, 0xb0] },
    { Prefix := [0xbb, 0x59],
      Suffix := [0x53, 0x59, 0x04, 0x12, 0x53, 0x59, 0x05, 0x12, 0x53, 0xb8, 0xb3, 0xb1] },
    { Prefix := [0xbb, 0x59],
      Suffix := [0x2a, 0xb4, 0xb6, 0x12, 0xb6, 0x2a, 0xb4, 0xb6, 0x12, 0xb6, 0xb6, 0xb0] } ] }),
  ("2.15.0", { Version := "", PartialMatches := [
    { Prefix := [0xbb, 0x59, 0x2b, 0xb7],
      Suffix := [0xb2, 0x12, 0x2b, 0xb9, 0x01, 0xb0, 0x2a, 0xb4, 0x2b, 0xb9, 0xb0] },
    { Prefix := [0xbb, 0x59],
      Suffix := [0x53, 0x59, 0x04, 0x12, 0x53, 0x59, 0x05, 0x12, 0x53, 0xb8, 0xb3, 0xb1] },
    { Prefix := [0xbb, 0x59],
      Suffix := [0x2a, 0xb4, 0xb6, 0x12, 0xb6, 0x2a, 0xb4, 0xb6, 0x12, 0xb6, 0xb6, 0xb0] } ] }),
  ("2.17.0", { Version := "", PartialMatches := [
    { Prefix := [0x2a, 0xb4, 0xc7, 0x01, 0xb0, 0xbb, 0x59, 0x2b, 0xb7],
      Suffix := [0xb2, 0x12, 0x2b, 0xb9, 0x01, 0xb0] },
    { Prefix := [0xbb, 0x59],
      Suffix := [0x2a, 0xb4, 0xb6, 0x12, 0xb6, 0x2a, 0xb4, 0xb6, 0x12, 0xb6, 0xb6, 0xb0] },
    { Prefix := [0xb8, 0xbb, 0x59],
      Suffix := [0x2a, 0xb6, 0xb6, 0x03, 0xb6, 0xac] },
    { Prefix := [0xbb, 0x59],
      Suffix := [0xb7, 0xb3, 0xb1] } ] }),
  ("2.12.2", { Version := "", PartialMatches := [
    { Prefix := [0xbb, 0x59],
      Suffix := [0x2a, 0xb4, 0xb6, 0x12, 0xb6, 0x2a, 0xb4, 0xb6, 0x12, 0xb6, 0xb6, 0xb0] },
    { Prefix := [0xbb, 0x59],
      Suffix := [0xb7, 0xb3, 0xb1] } ] }),
  ("2.8.2", { Version := "", PartialMatches := [
    { Prefix := [0xbb, 0x59, 0xb7, 0x12, 0xb6, 0xb6, 0x10, 0xb6, 0x12, 0xb6, 0xb6, 0xb6],
      Suffix := [0xb9, 0x19, 0xc6, 0x19, 0x19, 0xb6, 0x19, 0xb2, 0x19, 0xb8, 0xc0, 0xb0] },
    { Prefix := [0xbb, 0x59],
      Suffix := [0xb7, 0xb3, 0xb1] } ] }),
  ("2.1-2.8.1", { Version := "", PartialMatches := [
    { Prefix := [0xbb, 0x59, 0xb7],
      Suffix := [0xb9, 0x19, 0xc6, 0x19, 0x19, 0xb6, 0x19, 0xb2, 0x19, 0xb8, 0xc0, 0xb0] },
    { Prefix := [0xbb, 0x59],
      Suffix := [0xb7, 0xb3, 0xb1] },
    { Prefix := [0x2a, 0xb4],
      Suffix := [0xb1] } ] }) ]

/-- The expression `partialBytecodeSignatures[version]`: the zero value on a missing key. -/
def partialBytecodeSignaturesAt (version : String) : partialBytecodeSignature :=
  (mapGet partialBytecodeSignatures version).getD { Version := "", PartialMatches := [] }

/-! ## The matcher -/

/-- The loop `for i, methodBytecode := range methodBytecodes` shared by both passes, from
index `i` on: skip the indexes marked in `matchedIndexes`, stop at the first method that
passes `test` and yield its index (`matchIndex = i; break`); `none` is `matchIndex == -1`. -/
def scanMethods (test : List Byte → Bool) (matchedIndexes : List Bool) :
    List (List Byte) → Nat → Option Nat
  | [], _ => none
  | methodBytecode :: rest, i =>
    if matchedIndexes.getD i false then scanMethods test matchedIndexes rest (i + 1)
    else if test methodBytecode then some i
    else scanMethods test matchedIndexes rest (i + 1)

/-- The statement `if matchIndex != -1 { matchedIndexes[matchIndex] = true }`. -/
def markMatched (matchedIndexes : List Bool) : Option Nat → List Bool
  | none => matchedIndexes
  | some i => matchedIndexes.set i true

/-- The loop `for _, version := range exactMatch.Versions` writing
`exactVersionMatched[version] = matchIndex != -1`. -/
def recordVersions (exactVersionMatched : List (String × Bool)) (found : Bool) :
    List String → List (String × Bool)
  | [] => exactVersionMatched
  | version :: rest => recordVersions (mapSet exactVersionMatched version found) found rest

/-- The first loop of `BytecodeMatchesPartialSignatures` over a list of exact rules, on the
state `(exactVersionMatched, matchedIndexes)`. -/
def exactPass (methodBytecodes : List (List Byte)) :
    List exactMatch → List (String × Bool) × List Bool → List (String × Bool) × List Bool
  | [], st => st
  | rule :: rest, (exactVersionMatched, matchedIndexes) =>
    let matchIndex := scanMethods (fun methodBytecode =>
      decide (bytesCompare rule.Match methodBytecode = 0)) matchedIndexes methodBytecodes 0
    exactPass methodBytecodes rest
      (recordVersions exactVersionMatched matchIndex.isSome rule.Versions,
       markMatched matchedIndexes matchIndex)

/-- The body of the method loop of `partialSignatureMatches` after the `matchedIndexes`
test: the length guard, the prefix loop and the suffix loop. -/
def partialMatchTest (partialMatch : partialMethodMatchSignature)
    (methodBytecode : List Byte) : Bool :=
  if methodBytecode.length < partialMatch.Prefix.length + partialMatch.Suffix.length then false
  else
    let matched := (List.range partialMatch.Prefix.length).all fun x =>
      decide (partialMatch.Prefix.getD x 0 = methodBytecode.getD x 0)
    if !matched then false
    else
      let bytecodeLength := methodBytecode.length
      let suffixLength := partialMatch.Suffix.length
      (List.range suffixLength).all fun x =>
        decide (partialMatch.Suffix.getD (suffixLength - x - 1) 0
          = methodBytecode.getD (bytecodeLength - x - 1) 0)

/-- The loop of `partialSignatureMatches` over the partial rules. As in the source,
`matchedIndexes` is made inside the loop body, once per rule, so the mark written at the end
of the body (`matchedIndexes[matchIndex] = true`) is never read: the next rule starts from a
new, unmarked slice. -/
def partialMatchesLoop (methodBytecodes : List (List Byte)) :
    List partialMethodMatchSignature → Bool
  | [] => true
  | partialMatch :: rest =>
    let matchedIndexes := List.replicate methodBytecodes.length false
    match scanMethods (partialMatchTest partialMatch) matchedIndexes methodBytecodes 0 with
    | none => false
    | some matchIndex =>
      let _marked := markMatched matchedIndexes (some matchIndex)
      partialMatchesLoop methodBytecodes rest

def partialSignatureMatches (methodBytecodes : List (List Byte))
    (partialSignature : partialBytecodeSignature) : Bool :=
  partialMatchesLoop methodBytecodes partialSignature.PartialMatches

/-- The map `exactVersionMatched` as the first loop leaves it. -/
def exactVersionMatched (methodBytecodes : List (List Byte)) : List (String × Bool) :=
  (exactPass methodBytecodes exactMatches
    ([], List.replicate methodBytecodes.length false)).1

/-- The loop `for version, matched := range exactVersionMatched`, visiting the keys in the
order `order`, and the final `return UnknownVersion, false`. -/
def confirmLoop (methodBytecodes : List (List Byte)) (evm : List (String × Bool)) :
    List String → String × Bool
  | [] => (UnknownVersion, false)
  | version :: rest =>
    match mapGet evm version with
    | some true =>
      if partialSignatureMatches methodBytecodes (partialBytecodeSignaturesAt version) then
        (version, true)
      else confirmLoop methodBytecodes evm rest
    | _ => confirmLoop methodBytecodes evm rest

def BytecodeMatchesPartialSignatures (order : List String)
    (methodBytecodes : List (List Byte)) : String × Bool :=
  confirmLoop methodBytecodes (exactVersionMatched methodBytecodes) order

/-! ## The specification's reading of a partial rule -/

/-- A method satisfies a partial rule, in the words of the specification: its length is at
least `len(prefix)+len(suffix)`, its leading bytes equal the prefix and its trailing bytes
equal the suffix. -/
def Satisfies (rule : partialMethodMatchSignature) (method : List Byte) : Prop :=
  rule.Prefix.length + rule.Suffix.length ≤ method.length ∧
  method.take rule.Prefix.length = rule.Prefix ∧
  method.drop (method.length - rule.Suffix.length) = rule.Suffix

instance (rule : partialMethodMatchSignature) (method : List Byte) :
    Decidable (Satisfies rule method) := by
  unfold Satisfies; infer_instance

instance (order : List String) (m : List (String × Bool)) :
    Decidable (IterationOrder order m) := by
  unfold IterationOrder; infer_instance

/-- The exact pass with the search of an unclaimed equal method replaced by plain
membership of the pattern in the method list. -/
def exactPassByMembership (methodBytecodes : List (List Byte)) :
    List exactMatch → List (String × Bool) → List (String × Bool)
  | [], evm => evm
  | rule :: rest, evm =>
    exactPassByMembership methodBytecodes rest
      (recordVersions evm (decide (rule.Match ∈ methodBytecodes)) rule.Versions)

/-- The keys that `m[k] = v` leaves in a map with keys `keys`. -/
def keysAfterSet (keys : List String) (k : String) : List String :=
  if k ∈ keys then keys else keys ++ [k]

/-- The keys of `exactVersionMatched` after the exact pass over `rules`. -/
def keysAfterPass : List exactMatch → List String → List String
  | [], keys => keys
  | rule :: rest, keys => keysAfterPass rest (rule.Versions.foldl keysAfterSet keys)

/-! ## `jar.go`: the naming heuristic -/

structure zipFile where
  Name : List Byte
deriving DecidableEq, Repr

structure AverageJavaNameSizes where
  PackageName : ℚ
  ClassName : ℚ
deriving DecidableEq

/-- The constant `math.MaxInt32`. -/
def MaxInt32 : Nat := 2 ^ 31 - 1

/-- The conversion `uint32(n)` of an `int`. -/
def uint32 (n : Int) : Nat := (n % 2 ^ 32).toNat

/-- The function `strings.HasSuffix`. -/
def stringsHasSuffix (s suffix : List Byte) : Bool :=
  decide (suffix.length ≤ s.length) && decide (s.drop (s.length - suffix.length) = suffix)

/-- The function `strings.Split` for a separator of one byte. -/
def stringsSplit (sep : Byte) : List Byte → List (List Byte)
  | [] => [[]]
  | c :: cs =>
    if c = sep then [] :: stringsSplit sep cs
    else
      match stringsSplit sep cs with
      | [] => [[c]]
      | part :: parts => (c :: part) :: parts

/-- The bytes of `".class"`. -/
def dotClass : List Byte := [0x2e, 0x63, 0x6c, 0x61, 0x73, 0x73]

/-- The byte of `"/"`. -/
def slash : Byte := 0x2f

/-- The statement `packageNames[packageName] = struct{}{}` on a set kept as a list without
repetition. -/
def setAdd (s : List (List Byte)) (k : List Byte) : List (List Byte) :=
  if k ∈ s then s else s ++ [k]

/-- On `uint32` operands: `left > math.MaxInt32-uint32(right)` with the wrapping
subtraction of `uint32`, then the wrapping sum. -/
def addAvoidingOverflow (left : Nat) (right : Int) : Nat :=
  if left > (MaxInt32 + 2 ^ 32 - uint32 right) % 2 ^ 32 then MaxInt32
  else (left + uint32 right) % 2 ^ 32

/-- The function `average`. The guard `numberFound == 0` and its literal `0` are those of
the source. On the other branch the source divides in `float32`; here the quotient is the
exact one, without the rounding of `float32`, and no theorem below reads that branch. -/
def average (totalSize numberFound : Nat) : ℚ :=
  if numberFound = 0 then 0 else (totalSize : ℚ) / (numberFound : ℚ)

/-- The variables of the first loop of `AveragePackageAndClassLength`. -/
structure ClassLoopState where
  packageNames : List (List Byte)
  classesFound : Nat
  totalClassesNameSize : Nat
deriving DecidableEq, Repr

/-- The loop `for _, file := range files`. -/
def classLoop : List zipFile → ClassLoopState → ClassLoopState
  | [], st => st
  | file :: rest, st =>
    if stringsHasSuffix file.Name dotClass then
      let parts := stringsSplit slash file.Name
      let packageNames := parts.dropLast.foldl setAdd st.packageNames
      let className := parts.getLastD []
      classLoop rest
        { packageNames := packageNames
          classesFound := addAvoidingOverflow st.classesFound 1
          totalClassesNameSize :=
            addAvoidingOverflow st.totalClassesNameSize ((className.length : Int) - 5) }
    else classLoop rest st

/-- The loop `for uniquePackageName := range packageNames` on the state
`(packagesFound, totalPackagesNameSize)`, visiting the names in the given order. -/
def packageLoop : List (List Byte) → Nat × Nat → Nat × Nat
  | [], st => st
  | uniquePackageName :: rest, (packagesFound, totalPackagesNameSize) =>
    packageLoop rest
      (addAvoidingOverflow packagesFound 1,
       addAvoidingOverflow totalPackagesNameSize (uniquePackageName.length : Int))

/-- The state of the first loop at its exit. -/
def classLoopResult (files : List zipFile) : ClassLoopState :=
  classLoop files { packageNames := [], classesFound := 0, totalClassesNameSize := 0 }

/-- The function `AveragePackageAndClassLength`; `pkgOrder` is the order in which the
second loop visits the set `packageNames`. -/
def AveragePackageAndClassLength (pkgOrder : List (List Byte)) (files : List zipFile) :
    AverageJavaNameSizes :=
  let st := classLoopResult files
  let pk := packageLoop pkgOrder (0, 0)
  { PackageName := average pk.2 pk.1
    ClassName := average st.totalClassesNameSize st.classesFound }

/-- The simple class name of an entry name, in the words of the specification: the part
after the last `/`, without the extension `.class`. -/
def simpleClassName (name : List Byte) : List Byte :=
  let base := (stringsSplit slash name).getLastD []
  base.take (base.length - dotClass.length)


/-- The specification's reading of one confirmation attempt: the rules are assigned to
pairwise different method indexes, each method satisfying the rule that claims it. -/
def DistinctAssignment (methods : List (List Byte))
    (rules : List partialMethodMatchSignature) : Prop :=
  ∃ assign : List Nat, assign.Nodup ∧
    List.Forall₂ (fun rule i => ∃ m, methods[i]? = some m ∧ Satisfies rule m) rules assign

/-! ## Sample inputs -/

/-- The three partial rules of `partialBytecodeSignatures["2.1-2.8.1"]`, each turned into
a method: the prefix followed by the suffix. -/
def partialMethods_2_1 : List (List Byte) := [
  [0xbb, 0x59, 0xb7, 0xb9, 0x19, 0xc6, 0x19, 0x19, 0xb6, 0x19, 0xb2, 0x19, 0xb8, 0xc0, 0xb0],
  [0xbb, 0x59, 0xb7, 0xb3, 0xb1],
  [0x2a, 0xb4, 0xb1] ]

/-- A class with the last exact pattern naming "2.1-2.8.1" (`{0x2a,0x2b,0x2c,0xb7,0xb1}`) and
the three partial methods, but neither `{0x2a,0x2b,0xb7,0x2a,0x2c,0xb5,0xb1}` nor
`{0x2a,0xb4,0x2b,0xb9,0xb0}`. -/
def classWithLastExactOnly : List (List Byte) :=
  [0x2a, 0x2b, 0x2c, 0xb7, 0xb1] :: partialMethods_2_1

/-- The scenario of the specification: the exact pattern `{0x2a,0x2b,0xb7,0x2a,0x2c,0xb5,0xb1}`
and the three partial methods. -/
def classOfScenario : List (List Byte) :=
  [0x2a, 0x2b, 0xb7, 0x2a, 0x2c, 0xb5, 0xb1] :: partialMethods_2_1

/-- The keys of `exactVersionMatched` in the order of their first assignment. -/
def versionKeys : List String :=
  ["2.16.0", "2.15.0", "2.9.0-2.14.1", "2.17.0", "2.12.2", "2.8.2", "2.1-2.8.1"]

/-- Two partial rules that one method, `{0xbb,0x59,0xb7,0xb3,0xb1}`, satisfies both. -/
def overlappingSignature : partialBytecodeSignature :=
  { Version := "", PartialMatches := [
      { Prefix := [0xbb, 0x59], Suffix := [0xb1] },
      { Prefix := [0xbb], Suffix := [0xb3, 0xb1] } ] }

/-- A class holding every exact pattern that names "2.9.0-2.14.1" or "2.12.2" and one
method for each of their two (identical) partial rules. -/
def classOfTwoVersions : List (List Byte) := [
  [0x2a, 0x01, 0x2b, 0xb7, 0x2a, 0x2c, 0xb5, 0xb1],
  [0x12, 0xb6, 0xb2, 0x01, 0xb8, 0xc0, 0xb0],
  [0x2a, 0xb4, 0x2b, 0xb9, 0xb0],
  [0x2a, 0x2b, 0x2c, 0xb7, 0xb1],
  [0xb8, 0x12, 0x03, 0xb6, 0xac],
  [0x2a, 0xb4, 0xb8, 0xac],
  [0xbb, 0x59, 0x2a, 0xb4, 0xb6, 0x12, 0xb6, 0x2a, 0xb4, 0xb6, 0x12, 0xb6, 0xb6, 0xb0],
  [0xbb, 0x59, 0xb7, 0xb3, 0xb1] ]

/-- The bytes of the entry name `"Foo.class"`. -/
def fooClass : List Byte := [0x46, 0x6f, 0x6f, 0x2e, 0x63, 0x6c, 0x61, 0x73, 0x73]

/-- The bytes of the entry name `"META-INF/MANIFEST.MF"`. -/
def manifestName : List Byte :=
  [0x4d, 0x45, 0x54, 0x41, 0x2d, 0x49, 0x4e, 0x46, 0x2f,
   0x4d, 0x41, 0x4e, 0x49, 0x46, 0x45, 0x53, 0x54, 0x2e, 0x4d, 0x46]

/-! ## The exact totals of the naming heuristic -/

/-- The number of entries whose name ends in `".class"`, as a natural number without a
limit. -/
def trueClassCount (files : List zipFile) : Nat :=
  (files.filter fun file => stringsHasSuffix file.Name dotClass).length

/-- The sum that the first loop accumulates, `len(className)-5` over the entries whose name
ends in `".class"`, as a natural number without a limit. -/
def trueClassNameTotal (files : List zipFile) : Nat :=
  ((files.filter fun file => stringsHasSuffix file.Name dotClass).map fun file =>
    ((stringsSplit slash file.Name).getLastD []).length - 5).sum

/-- The sum of the lengths of the simple class names, the total of the specification. -/
def simpleNameTotal (files : List zipFile) : Nat :=
  ((files.filter fun file => stringsHasSuffix file.Name dotClass).map fun file =>
    (simpleClassName file.Name).length).sum

/-- An entry name of 65535 bytes, the longest a zip archive can hold: 65529 times `a`, then
`".class"`. -/
def longClassName : List Byte := List.replicate 65529 0x61 ++ dotClass

/-- An archive of 32800 entries named `longClassName`. -/
def manyLongEntries : List zipFile := List.replicate 32800 { Name := longClassName }

/-- The last rule of a list of exact rules that names a version, if there is one. -/
def lastRuleNaming (version : String) : List exactMatch → Option exactMatch
  | [] => none
  | rule :: rest =>
    match lastRuleNaming version rest with
    | some later => some later
    | none => if version ∈ rule.Versions then some rule else none

/-! ## One consumption tracker for all partial rules -/

/-- The variant of the loop of `partialSignatureMatches` that keeps one `matchedIndexes`
across all rules of the attempt: the tracker is an argument of the loop, and the mark of a
rule is seen by the rules after it. -/
def partialMatchesLoopTracked (methodBytecodes : List (List Byte)) :
    List partialMethodMatchSignature → List Bool → Bool
  | [], _ => true
  | partialMatch :: rest, matchedIndexes =>
    match scanMethods (partialMatchTest partialMatch) matchedIndexes methodBytecodes 0 with
    | none => false
    | some matchIndex =>
      partialMatchesLoopTracked methodBytecodes rest
        (markMatched matchedIndexes (some matchIndex))

/-- The variant of `partialSignatureMatches` with one tracker, made once before the loop. -/
def partialSignatureMatchesTracked (methodBytecodes : List (List Byte))
    (partialSignature : partialBytecodeSignature) : Bool :=
  partialMatchesLoopTracked methodBytecodes partialSignature.PartialMatches
    (List.replicate methodBytecodes.length false)

/-- Two partial rules can be satisfied by one byte sequence only if one prefix starts the
other and one suffix ends the other. -/
def endsCompatible (r1 r2 : partialMethodMatchSignature) : Bool :=
  (r1.Prefix.isPrefixOf r2.Prefix || r2.Prefix.isPrefixOf r1.Prefix) &&
  (r1.Suffix.isSuffixOf r2.Suffix || r2.Suffix.isSuffixOf r1.Suffix)

/-! ## The indexes claimed in the exact pass -/

/-- The `matchIndex` that each rule of the first loop of `BytecodeMatchesPartialSignatures`
ends with, in the order of the rules: the loop of `exactPass` with the indexes kept instead
of the map. -/
def exactPassClaims (methodBytecodes : List (List Byte)) :
    List exactMatch → List Bool → List (Option Nat)
  | [], _ => []
  | rule :: rest, matchedIndexes =>
    let matchIndex := scanMethods (fun methodBytecode =>
      decide (bytesCompare rule.Match methodBytecode = 0)) matchedIndexes methodBytecodes 0
    matchIndex :: exactPassClaims methodBytecodes rest (markMatched matchedIndexes matchIndex)

/-- The claims of the exact pass of `BytecodeMatchesPartialSignatures`. -/
def exactClaims (methodBytecodes : List (List Byte)) : List (Option Nat) :=
  exactPassClaims methodBytecodes exactMatches (List.replicate methodBytecodes.length false)

/-- The map that results from writing, rule after rule, whether the rule has a claim. -/
def recordClaims : List exactMatch → List (Option Nat) → List (String × Bool) →
    List (String × Bool)
  | rule :: rest, claim :: claims, evm =>
    recordClaims rest claims (recordVersions evm claim.isSome rule.Versions)
  | _, _, evm => evm

/-! ## The matcher with the index checks of the run time

In this second embedding every index expression is checked as the Go run time checks it:
`none` stands for the panic "index out of range". The loops are the same as above. -/

/-- The expression `s[i]` for an `int` index: `none` when `i` is negative or not below
`len(s)`. -/
def indexAt {α : Type} (s : List α) (i : Int) : Option α :=
  if 0 ≤ i then s[i.toNat]? else none

/-- The prefix loop `for x := 0; x < len(Prefix); x++` from `x` on, `remaining` being
`len(Prefix) - x`: `some false` is the `break` on a difference. -/
def prefixLoopChecked (pre methodBytecode : List Byte) : Nat → Nat → Option Bool
  | 0, _ => some true
  | remaining + 1, x =>
    match indexAt pre (x : Int), indexAt methodBytecode (x : Int) with
    | some a, some b =>
      if a ≠ b then some false else prefixLoopChecked pre methodBytecode remaining (x + 1)
    | _, _ => none

/-- The suffix loop `for x := 0; x < suffixLength; x++` from `x` on, `remaining` being
`suffixLength - x`. -/
def suffixLoopChecked (suf methodBytecode : List Byte) : Nat → Nat → Option Bool
  | 0, _ => some true
  | remaining + 1, x =>
    match indexAt suf ((suf.length : Int) - (x : Int) - 1),
        indexAt methodBytecode ((methodBytecode.length : Int) - (x : Int) - 1) with
    | some a, some b =>
      if a ≠ b then some false else suffixLoopChecked suf methodBytecode remaining (x + 1)
    | _, _ => none

/-- The test of one method against one partial rule, with the index checks. -/
def partialMatchTestChecked (partialMatch : partialMethodMatchSignature)
    (methodBytecode : List Byte) : Option Bool :=
  if methodBytecode.length < partialMatch.Prefix.length + partialMatch.Suffix.length then
    some false
  else
    match prefixLoopChecked partialMatch.Prefix methodBytecode partialMatch.Prefix.length 0 with
    | none => none
    | some false => some false
    | some true =>
      suffixLoopChecked partialMatch.Suffix methodBytecode partialMatch.Suffix.length 0

/-- The method loop with the check of `matchedIndexes[i]`. -/
def scanMethodsChecked (test : List Byte → Option Bool) (matchedIndexes : List Bool) :
    List (List Byte) → Nat → Option (Option Nat)
  | [], _ => some none
  | methodBytecode :: rest, i =>
    match indexAt matchedIndexes (i : Int) with
    | none => none
    | some true => scanMethodsChecked test matchedIndexes rest (i + 1)
    | some false =>
      match test methodBytecode with
      | none => none
      | some true => some (some i)
      | some false => scanMethodsChecked test matchedIndexes rest (i + 1)

/-- The statement `if matchIndex != -1 { matchedIndexes[matchIndex] = true }` with the check
of the index. -/
def markMatchedChecked (matchedIndexes : List Bool) : Option Nat → Option (List Bool)
  | none => some matchedIndexes
  | some i => if i < matchedIndexes.length then some (matchedIndexes.set i true) else none

/-- The first loop of `BytecodeMatchesPartialSignatures` with the index checks. -/
def exactPassChecked (methodBytecodes : List (List Byte)) :
    List exactMatch → List (String × Bool) × List Bool →
      Option (List (String × Bool) × List Bool)
  | [], st => some st
  | rule :: rest, (exactVersionMatched, matchedIndexes) =>
    match scanMethodsChecked (fun methodBytecode =>
        some (decide (bytesCompare rule.Match methodBytecode = 0)))
        matchedIndexes methodBytecodes 0 with
    | none => none
    | some matchIndex =>
      match markMatchedChecked matchedIndexes matchIndex with
      | none => none
      | some marked =>
        exactPassChecked methodBytecodes rest
          (recordVersions exactVersionMatched matchIndex.isSome rule.Versions, marked)

/-- The loop of `partialSignatureMatches` with the index checks. -/
def partialMatchesLoopChecked (methodBytecodes : List (List Byte)) :
    List partialMethodMatchSignature → Option Bool
  | [] => some true
  | partialMatch :: rest =>
    let matchedIndexes := List.replicate methodBytecodes.length false
    match scanMethodsChecked (partialMatchTestChecked partialMatch) matchedIndexes
        methodBytecodes 0 with
    | none => none
    | some none => some false
    | some (some matchIndex) =>
      match markMatchedChecked matchedIndexes (some matchIndex) with
      | none => none
      | some _ => partialMatchesLoopChecked methodBytecodes rest

def partialSignatureMatchesChecked (methodBytecodes : List (List Byte))
    (partialSignature : partialBytecodeSignature) : Option Bool :=
  partialMatchesLoopChecked methodBytecodes partialSignature.PartialMatches

/-- The second loop of `BytecodeMatchesPartialSignatures` over the checked
`partialSignatureMatches`. -/
def confirmLoopChecked (methodBytecodes : List (List Byte)) (evm : List (String × Bool)) :
    List String → Option (String × Bool)
  | [] => some (UnknownVersion, false)
  | version :: rest =>
    match mapGet evm version with
    | some true =>
      match partialSignatureMatchesChecked methodBytecodes
          (partialBytecodeSignaturesAt version) with
      | none => none
      | some true => some (version, true)
      | some false => confirmLoopChecked methodBytecodes evm rest
    | _ => confirmLoopChecked methodBytecodes evm rest

def BytecodeMatchesPartialSignaturesChecked (order : List String)
    (methodBytecodes : List (List Byte)) : Option (String × Bool) :=
  match exactPassChecked methodBytecodes exactMatches
      ([], List.replicate methodBytecodes.length false) with
  | none => none
  | some st => confirmLoopChecked methodBytecodes st.1 order

/-! ## Lemmas on the library functions and on maps -/

theorem bytesCompare_eq_zero_iff (a b : List Byte) : bytesCompare a b = 0 ↔ a = b := by
  induction a generalizing b with
  | nil => cases b <;> simp [bytesCompare]
  | cons x xs ih =>
    cases b with
    | nil => simp [bytesCompare]
    | cons y ys =>
      simp only [bytesCompare, List.cons.injEq]
      by_cases h1 : x < y
      · simp only [h1, if_true]
        constructor
        · intro h; exact absurd h (by decide)
        · intro h; exact absurd h.1 (Nat.ne_of_lt h1)
      · by_cases h2 : y < x
        · simp only [h1, h2, if_true, if_false]
          constructor
          · intro h; exact absurd h (by decide)
          · intro h; exact absurd h.1.symm (Nat.ne_of_lt h2)
        · simp only [h1, h2, if_false, ih]
          constructor
          · intro h; exact ⟨Nat.le_antisymm (Nat.le_of_not_lt h2) (Nat.le_of_not_lt h1), h⟩
          · intro h; exact h.2

theorem mapGet_mapSet {β : Type} (m : List (String × β)) (k k' : String) (v : β) :
    mapGet (mapSet m k v) k' = if k = k' then some v else mapGet m k' := by
  induction m with
  | nil => simp [mapSet, mapGet]
  | cons e rest ih =>
    obtain ⟨k0, v0⟩ := e
    by_cases h : k0 = k
    · subst h
      by_cases h' : k0 = k' <;> simp [mapSet, mapGet, h']
    · by_cases h' : k0 = k'
      · subst h'
        simp [mapSet, mapGet, h, Ne.symm h]
      · simp [mapSet, mapGet, h, h', ih]

theorem mapGet_recordVersions (m : List (String × Bool)) (found : Bool) (versions : List String)
    (k : String) :
    mapGet (recordVersions m found versions) k
      = if k ∈ versions then some found else mapGet m k := by
  induction versions generalizing m with
  | nil => simp [recordVersions]
  | cons v rest ih =>
    simp only [recordVersions, ih, mapGet_mapSet, List.mem_cons]
    by_cases h1 : k ∈ rest
    · simp [h1]
    · by_cases h2 : v = k
      · simp [h1, h2]
      · simp [h1, h2, Ne.symm h2]

theorem mapGet_mem {β : Type} (m : List (String × β)) (k : String) (v : β)
    (h : mapGet m k = some v) : (k, v) ∈ m := by
  induction m with
  | nil => simp [mapGet] at h
  | cons e rest ih =>
    obtain ⟨k0, v0⟩ := e
    by_cases h0 : k0 = k
    · simp [mapGet, h0] at h
      simp [h0, h]
    · simp [mapGet, h0] at h
      exact List.mem_cons_of_mem _ (ih h)

theorem mapKeys_mapSet {β : Type} (m : List (String × β)) (k : String) (v : β) :
    mapKeys (mapSet m k v) = keysAfterSet (mapKeys m) k := by
  induction m with
  | nil => simp [mapSet, mapKeys, keysAfterSet]
  | cons e rest ih =>
    obtain ⟨k0, v0⟩ := e
    by_cases h : k0 = k
    · subst h
      simp [mapSet, mapKeys, keysAfterSet]
    · have ih' : List.map Prod.fst (mapSet rest k v)
          = keysAfterSet (List.map Prod.fst rest) k := ih
      simp only [mapSet, mapKeys, h, if_false, List.map_cons, ih']
      unfold keysAfterSet
      by_cases hk : k ∈ List.map Prod.fst rest
      · simp [hk]
      · simp [hk, Ne.symm h]

theorem mapKeys_recordVersions (m : List (String × Bool)) (found : Bool)
    (versions : List String) :
    mapKeys (recordVersions m found versions) = versions.foldl keysAfterSet (mapKeys m) := by
  induction versions generalizing m with
  | nil => simp [recordVersions]
  | cons v rest ih => simp [recordVersions, ih, mapKeys_mapSet]

theorem mapKeys_exactPass (methods : List (List Byte)) (rules : List exactMatch)
    (st : List (String × Bool) × List Bool) :
    mapKeys (exactPass methods rules st).1 = keysAfterPass rules (mapKeys st.1) := by
  induction rules generalizing st with
  | nil => simp [exactPass, keysAfterPass]
  | cons r rest ih =>
    obtain ⟨evm, mi⟩ := st
    simp [exactPass, keysAfterPass, ih, mapKeys_recordVersions]

set_option maxRecDepth 100000 in
/-- The keys of `exactVersionMatched` do not depend on the methods: every label named by
an exact rule is written, whether the rule found a method or not. -/
theorem mapKeys_exactVersionMatched (methods : List (List Byte)) :
    mapKeys (exactVersionMatched methods)
      = ["2.16.0", "2.15.0", "2.9.0-2.14.1", "2.17.0", "2.12.2", "2.8.2", "2.1-2.8.1"] := by
  unfold exactVersionMatched
  rw [mapKeys_exactPass]
  show keysAfterPass exactMatches [] = _
  decide

/-! ## The method scan -/

theorem scanMethods_cons (test : List Byte → Bool) (mi : List Bool) (x : List Byte)
    (rest : List (List Byte)) (i : Nat) :
    scanMethods test mi (x :: rest) i
      = if mi.getD i false = true then scanMethods test mi rest (i + 1)
        else if test x = true then some i else scanMethods test mi rest (i + 1) := rfl

theorem scanMethods_eq_none_iff (test : List Byte → Bool) (mi : List Bool)
    (methods : List (List Byte)) (i : Nat) :
    scanMethods test mi methods i = none ↔
      ∀ j m, methods[j]? = some m → mi.getD (i + j) false = true ∨ test m = false := by
  induction methods generalizing i with
  | nil => simp [scanMethods]
  | cons x rest ih =>
    rw [scanMethods_cons]
    constructor
    · intro h j m hj
      cases j with
      | zero =>
        simp only [List.getElem?_cons_zero, Option.some.injEq] at hj
        subst hj
        rw [Nat.add_zero]
        by_cases hm : mi.getD i false = true
        · exact Or.inl hm
        · right
          rw [if_neg hm] at h
          by_cases ht : test x = true
          · rw [if_pos ht] at h
            exact absurd h (by simp)
          · exact Bool.eq_false_iff.2 ht
      | succ j =>
        simp only [List.getElem?_cons_succ] at hj
        have hrest : scanMethods test mi rest (i + 1) = none := by
          by_cases hm : mi.getD i false = true
          · rwa [if_pos hm] at h
          · rw [if_neg hm] at h
            by_cases ht : test x = true
            · rw [if_pos ht] at h
              exact absurd h (by simp)
            · rwa [if_neg ht] at h
        have := (ih (i + 1)).1 hrest j m hj
        rwa [show i + 1 + j = i + (j + 1) by omega] at this
    · intro h
      have h0 := h 0 x (by simp)
      have hrest : scanMethods test mi rest (i + 1) = none := by
        apply (ih (i + 1)).2
        intro j m hj
        have := h (j + 1) m (by simpa using hj)
        rwa [show i + (j + 1) = i + 1 + j by omega] at this
      rw [Nat.add_zero] at h0
      rcases h0 with h0 | h0
      · rw [if_pos h0]
        exact hrest
      · by_cases hm : mi.getD i false = true
        · rw [if_pos hm]
          exact hrest
        · rw [if_neg hm, if_neg (Bool.eq_false_iff.1 h0)]
          exact hrest

theorem scanMethods_eq_some (test : List Byte → Bool) (mi : List Bool)
    (methods : List (List Byte)) (i k : Nat) (h : scanMethods test mi methods i = some k) :
    i ≤ k ∧ mi.getD k false = false ∧ ∃ m, methods[k - i]? = some m ∧ test m = true := by
  induction methods generalizing i with
  | nil => simp [scanMethods] at h
  | cons x rest ih =>
    rw [scanMethods_cons] at h
    by_cases hm : mi.getD i false = true
    · rw [if_pos hm] at h
      obtain ⟨h1, h2, m, h3, h4⟩ := ih (i + 1) h
      refine ⟨by omega, h2, m, ?_, h4⟩
      rw [show k - i = (k - (i + 1)) + 1 by omega]
      simpa using h3
    · rw [if_neg hm] at h
      by_cases ht : test x = true
      · rw [if_pos ht, Option.some.injEq] at h
        subst h
        exact ⟨le_refl _, Bool.eq_false_iff.2 hm, x, by simp, ht⟩
      · rw [if_neg ht] at h
        obtain ⟨h1, h2, m, h3, h4⟩ := ih (i + 1) h
        refine ⟨by omega, h2, m, ?_, h4⟩
        rw [show k - i = (k - (i + 1)) + 1 by omega]
        simpa using h3

theorem getD_replicate_false (n j : Nat) : (List.replicate n false).getD j false = false := by
  rw [List.getD_eq_getElem?_getD, List.getElem?_replicate]
  split <;> rfl

/-- With nothing marked, the scan finds a method exactly when some method passes. -/
theorem scanMethods_fresh_isSome (test : List Byte → Bool) (methods : List (List Byte))
    (n : Nat) :
    (scanMethods test (List.replicate n false) methods 0).isSome = true
      ↔ ∃ m ∈ methods, test m = true := by
  constructor
  · intro h
    obtain ⟨k, hk⟩ := Option.isSome_iff_exists.1 h
    obtain ⟨_, _, m, hm, ht⟩ := scanMethods_eq_some _ _ _ _ _ hk
    exact ⟨m, List.getElem?_mem hm, ht⟩
  · rintro ⟨m, hm, ht⟩
    cases hs : scanMethods test (List.replicate n false) methods 0 with
    | some k => rfl
    | none =>
      obtain ⟨j, hj⟩ := List.getElem?_of_mem hm
      rcases (scanMethods_eq_none_iff _ _ _ _).1 hs j m hj with h | h
      · rw [getD_replicate_false] at h
        exact absurd h (by decide)
      · rw [ht] at h
        exact absurd h (by decide)

/-! ## The partial test and the specification's reading of it -/

theorem take_eq_iff_forall (p m : List Byte) (hlen : p.length ≤ m.length) :
    m.take p.length = p ↔ ∀ x, x < p.length → p.getD x 0 = m.getD x 0 := by
  constructor
  · intro h x hx
    have h1 : p[x]? = m[x]? := by
      conv_lhs => rw [← h]
      exact List.getElem?_take_of_lt hx
    rw [List.getD_eq_getElem?_getD, List.getD_eq_getElem?_getD, h1]
  · intro h
    apply List.ext_getElem?
    intro x
    by_cases hx : x < p.length
    · rw [List.getElem?_take_of_lt hx]
      have := h x hx
      rw [List.getD_eq_getElem?_getD, List.getD_eq_getElem?_getD,
        List.getElem?_eq_getElem hx, List.getElem?_eq_getElem (lt_of_lt_of_le hx hlen)] at this
      rw [List.getElem?_eq_getElem hx, List.getElem?_eq_getElem (lt_of_lt_of_le hx hlen)]
      simp only [Option.getD_some] at this
      rw [this]
    · rw [List.getElem?_eq_none (by rw [List.length_take]; omega),
        List.getElem?_eq_none (by omega)]

theorem drop_eq_iff_forall (s m : List Byte) (hlen : s.length ≤ m.length) :
    m.drop (m.length - s.length) = s ↔
      ∀ x, x < s.length → s.getD (s.length - x - 1) 0 = m.getD (m.length - x - 1) 0 := by
  constructor
  · intro h x hx
    have h1 : (m.drop (m.length - s.length))[s.length - x - 1]? = m[m.length - x - 1]? := by
      rw [List.getElem?_drop]
      congr 1
      omega
    rw [h] at h1
    rw [List.getD_eq_getElem?_getD, List.getD_eq_getElem?_getD, h1]
  · intro h
    apply List.ext_getElem?
    intro y
    rw [List.getElem?_drop]
    by_cases hy : y < s.length
    · have := h (s.length - y - 1) (by omega)
      rw [show s.length - (s.length - y - 1) - 1 = y by omega,
        show m.length - (s.length - y - 1) - 1 = m.length - s.length + y by omega,
        List.getD_eq_getElem?_getD, List.getD_eq_getElem?_getD,
        List.getElem?_eq_getElem hy,
        List.getElem?_eq_getElem (show m.length - s.length + y < m.length by omega)] at this
      rw [List.getElem?_eq_getElem hy,
        List.getElem?_eq_getElem (show m.length - s.length + y < m.length by omega)]
      simp only [Option.getD_some] at this
      rw [this]
    · rw [List.getElem?_eq_none (by omega), List.getElem?_eq_none (by omega)]

/-- The code's test of one method against one partial rule is the specification's
`Satisfies`. -/
theorem partialMatchTest_iff (rule : partialMethodMatchSignature) (method : List Byte) :
    partialMatchTest rule method = true ↔ Satisfies rule method := by
  unfold partialMatchTest Satisfies
  by_cases hlen : method.length < rule.Prefix.length + rule.Suffix.length
  · rw [if_pos hlen]
    constructor
    · intro h; exact absurd h (by decide)
    · intro h; omega
  · rw [if_neg hlen]
    have hp : rule.Prefix.length ≤ method.length := by omega
    have hs : rule.Suffix.length ≤ method.length := by omega
    rw [take_eq_iff_forall _ _ hp, drop_eq_iff_forall _ _ hs]
    by_cases hpre : ((List.range rule.Prefix.length).all fun x =>
        decide (rule.Prefix.getD x 0 = method.getD x 0)) = true
    · have hpre' := hpre
      rw [List.all_eq_true] at hpre'
      simp only [hpre, Bool.not_true, Bool.false_eq_true, if_false]
      rw [List.all_eq_true]
      constructor
      · intro h
        refine ⟨by omega, ?_, ?_⟩
        · intro x hx
          exact of_decide_eq_true (hpre' x (List.mem_range.2 hx))
        · intro x hx
          exact of_decide_eq_true (h x (List.mem_range.2 hx))
      · rintro ⟨_, _, h⟩ x hx
        exact decide_eq_true (h x (List.mem_range.1 hx))
    · have hpre' := hpre
      rw [List.all_eq_true] at hpre'
      rw [Bool.not_eq_true] at hpre
      simp only [hpre, Bool.not_false, if_true]
      constructor
      · intro h; exact absurd h (by decide)
      · rintro ⟨_, h, _⟩
        exfalso
        apply hpre'
        intro x hx
        exact decide_eq_true (h x (List.mem_range.1 hx))

theorem partialMatchesLoop_cons (methods : List (List Byte))
    (r : partialMethodMatchSignature) (rest : List partialMethodMatchSignature) :
    partialMatchesLoop methods (r :: rest)
      = match scanMethods (partialMatchTest r) (List.replicate methods.length false)
          methods 0 with
        | none => false
        | some _ => partialMatchesLoop methods rest := rfl

theorem partialMatchesLoop_iff (methods : List (List Byte))
    (rules : List partialMethodMatchSignature) :
    partialMatchesLoop methods rules = true
      ↔ ∀ rule ∈ rules, ∃ m ∈ methods, partialMatchTest rule m = true := by
  induction rules with
  | nil => simp [partialMatchesLoop]
  | cons r rest ih =>
    have hscan := scanMethods_fresh_isSome (partialMatchTest r) methods methods.length
    rw [partialMatchesLoop_cons]
    cases hs : scanMethods (partialMatchTest r) (List.replicate methods.length false) methods 0 with
    | none =>
      rw [hs] at hscan
      simp only [Option.isSome_none, Bool.false_eq_true, false_iff] at hscan
      show false = true ↔ _
      constructor
      · intro h; exact absurd h (by decide)
      · intro h
        exact absurd (h r (List.mem_cons_self _ _)) hscan
    | some k =>
      rw [hs] at hscan
      simp only [Option.isSome_some, true_iff] at hscan
      show partialMatchesLoop methods rest = true ↔ _
      simp only [ih, List.mem_cons, forall_eq_or_imp]
      constructor
      · intro h; exact ⟨hscan, h⟩
      · intro h; exact h.2

/-- What `partialSignatureMatches` decides: every rule of the signature has a method that
satisfies it; nothing asks the methods of different rules to differ. -/
theorem partialSignatureMatches_iff (methods : List (List Byte))
    (sig : partialBytecodeSignature) :
    partialSignatureMatches methods sig = true
      ↔ ∀ rule ∈ sig.PartialMatches, ∃ m ∈ methods, Satisfies rule m := by
  unfold partialSignatureMatches
  rw [partialMatchesLoop_iff]
  constructor
  · intro h rule hr
    obtain ⟨m, hm, ht⟩ := h rule hr
    exact ⟨m, hm, (partialMatchTest_iff _ _).1 ht⟩
  · intro h rule hr
    obtain ⟨m, hm, ht⟩ := h rule hr
    exact ⟨m, hm, (partialMatchTest_iff _ _).2 ht⟩

/-! ## The exact pass -/

theorem exactPass_cons (methods : List (List Byte)) (r : exactMatch) (rest : List exactMatch)
    (evm : List (String × Bool)) (mi : List Bool) :
    exactPass methods (r :: rest) (evm, mi)
      = exactPass methods rest
          (recordVersions evm
            (scanMethods (fun methodBytecode => decide (bytesCompare r.Match methodBytecode = 0))
              mi methods 0).isSome r.Versions,
           markMatched mi
            (scanMethods (fun methodBytecode => decide (bytesCompare r.Match methodBytecode = 0))
              mi methods 0)) := rfl

theorem exactPassByMembership_cons (methods : List (List Byte)) (r : exactMatch)
    (rest : List exactMatch) (evm : List (String × Bool)) :
    exactPassByMembership methods (r :: rest) evm
      = exactPassByMembership methods rest
          (recordVersions evm (decide (r.Match ∈ methods)) r.Versions) := rfl

/-- While the marks sit only on methods equal to a pattern already handled (`done`) and the
remaining patterns are pairwise different and new, the search of a rule succeeds exactly
when its pattern is one of the methods. -/
theorem exactPass_fst_eq (methods : List (List Byte)) (rules : List exactMatch)
    (done : List (List Byte)) (evm : List (String × Bool)) (mi : List Bool)
    (hinv : ∀ j, mi.getD j false = true → ∃ m, methods[j]? = some m ∧ m ∈ done)
    (hnodup : (rules.map exactMatch.Match).Nodup)
    (hdisj : ∀ r ∈ rules, r.Match ∉ done) :
    (exactPass methods rules (evm, mi)).1 = exactPassByMembership methods rules evm := by
  induction rules generalizing done evm mi with
  | nil => rfl
  | cons r rest ih =>
    rw [exactPass_cons]
    have htest : ∀ m : List Byte,
        decide (bytesCompare r.Match m = 0) = true ↔ r.Match = m := by
      intro m
      rw [decide_eq_true_iff, bytesCompare_eq_zero_iff]
    rw [List.map_cons, List.nodup_cons] at hnodup
    have hr : r.Match ∉ done := hdisj r (List.mem_cons_self _ _)
    cases hs : scanMethods (fun methodBytecode =>
        decide (bytesCompare r.Match methodBytecode = 0)) mi methods 0 with
    | none =>
      have hnot : r.Match ∉ methods := by
        intro hmem
        obtain ⟨j, hj⟩ := List.getElem?_of_mem hmem
        rcases (scanMethods_eq_none_iff _ _ _ _).1 hs j _ hj with h | h
        · rw [Nat.zero_add] at h
          obtain ⟨m, hm, hd⟩ := hinv j h
          rw [hj, Option.some.injEq] at hm
          exact hr (hm ▸ hd)
        · have := (htest r.Match).2 rfl
          rw [this] at h
          exact absurd h (by decide)
      have hdec : decide (r.Match ∈ methods) = false := decide_eq_false hnot
      show (exactPass methods rest (recordVersions evm false r.Versions, mi)).1 = _
      rw [ih done _ _ hinv hnodup.2 (fun r' hr' => hdisj r' (List.mem_cons_of_mem _ hr')),
        exactPassByMembership_cons, hdec]
    | some k =>
      obtain ⟨_, _, m, hm, ht⟩ := scanMethods_eq_some _ _ _ _ _ hs
      have hmeq : r.Match = m := (htest m).1 ht
      rw [Nat.sub_zero] at hm
      have hmem : r.Match ∈ methods := hmeq ▸ List.getElem?_mem hm
      have hdec : decide (r.Match ∈ methods) = true := decide_eq_true hmem
      show (exactPass methods rest (recordVersions evm true r.Versions, mi.set k true)).1 = _
      rw [ih (r.Match :: done)]
      · rw [exactPassByMembership_cons, hdec]
      · intro j hj
        rw [List.getD_eq_getElem?_getD, List.getElem?_set] at hj
        by_cases hkj : k = j
        · subst hkj
          exact ⟨m, hm, hmeq ▸ List.mem_cons_self _ _⟩
        · rw [if_neg hkj, ← List.getD_eq_getElem?_getD] at hj
          obtain ⟨m', hm', hd⟩ := hinv j hj
          exact ⟨m', hm', List.mem_cons_of_mem _ hd⟩
      · exact hnodup.2
      · intro r' hr' hmem'
        rcases List.mem_cons.1 hmem' with h | h
        · exact hnodup.1 (h ▸ List.mem_map_of_mem _ hr')
        · exact hdisj r' (List.mem_cons_of_mem _ hr') h

/-- The patterns of the embedded exact rules are pairwise different. -/
theorem exactMatches_nodup : (exactMatches.map exactMatch.Match).Nodup := by
  decide

/-- On the embedded table the exact pass records, for each rule, whether its pattern is one
of the methods. -/
theorem exactVersionMatched_eq (methods : List (List Byte)) :
    exactVersionMatched methods = exactPassByMembership methods exactMatches [] := by
  unfold exactVersionMatched
  apply exactPass_fst_eq methods exactMatches [] [] _ _ exactMatches_nodup
  · intro r _ h
    exact absurd h (List.not_mem_nil _)
  · intro j hj
    rw [getD_replicate_false] at hj
    exact absurd hj (by decide)

theorem exactPassByMembership_congr (methods methods' : List (List Byte))
    (rules : List exactMatch) (evm : List (String × Bool))
    (h : ∀ r ∈ rules, (r.Match ∈ methods ↔ r.Match ∈ methods')) :
    exactPassByMembership methods rules evm = exactPassByMembership methods' rules evm := by
  induction rules generalizing evm with
  | nil => rfl
  | cons r rest ih =>
    have : decide (r.Match ∈ methods) = decide (r.Match ∈ methods') :=
      decide_eq_decide.2 (h r (List.mem_cons_self _ _))
    rw [exactPassByMembership_cons, exactPassByMembership_cons, this]
    exact ih _ (fun r' hr' => h r' (List.mem_cons_of_mem _ hr'))

/-- Two method lists that hold the same exact patterns leave the same map. -/
theorem exactVersionMatched_congr (methods methods' : List (List Byte))
    (h : ∀ r ∈ exactMatches, (r.Match ∈ methods ↔ r.Match ∈ methods')) :
    exactVersionMatched methods = exactVersionMatched methods' := by
  rw [exactVersionMatched_eq, exactVersionMatched_eq]
  exact exactPassByMembership_congr _ _ _ _ h

/-! ## The confirmation loop -/

theorem confirmLoop_cons (methods : List (List Byte)) (evm : List (String × Bool))
    (version : String) (rest : List String) :
    confirmLoop methods evm (version :: rest)
      = if mapGet evm version = some true ∧
            partialSignatureMatches methods (partialBytecodeSignaturesAt version) = true then
          (version, true)
        else confirmLoop methods evm rest := by
  rw [confirmLoop]
  cases h : mapGet evm version with
  | none => simp
  | some b =>
    cases b with
    | false => simp
    | true =>
      by_cases hp : partialSignatureMatches methods (partialBytecodeSignaturesAt version) = true
      · simp [hp]
      · simp [hp]

/-- A version returned with `true` was visited, was recorded `true` by the exact pass and
passed `partialSignatureMatches`. -/
theorem confirmLoop_true (methods : List (List Byte)) (evm : List (String × Bool))
    (order : List String) (v : String) (h : confirmLoop methods evm order = (v, true)) :
    v ∈ order ∧ mapGet evm v = some true ∧
      partialSignatureMatches methods (partialBytecodeSignaturesAt v) = true := by
  induction order with
  | nil =>
    unfold confirmLoop at h
    exact absurd (congrArg Prod.snd h) Bool.false_ne_true
  | cons x rest ih =>
    rw [confirmLoop_cons] at h
    by_cases hx : mapGet evm x = some true ∧
        partialSignatureMatches methods (partialBytecodeSignaturesAt x) = true
    · rw [if_pos hx] at h
      have hxv : x = v := congrArg Prod.fst h
      subst hxv
      exact ⟨List.mem_cons_self _ _, hx.1, hx.2⟩
    · rw [if_neg hx] at h
      obtain ⟨h1, h2⟩ := ih h
      exact ⟨List.mem_cons_of_mem _ h1, h2⟩

/-- The loop ends on `(UnknownVersion, false)` exactly when no visited version is both
recorded `true` and confirmed; otherwise its boolean is `true`. -/
theorem confirmLoop_unknown_iff (methods : List (List Byte)) (evm : List (String × Bool))
    (order : List String) :
    confirmLoop methods evm order = (UnknownVersion, false) ↔
      ∀ v ∈ order, ¬ (mapGet evm v = some true ∧
        partialSignatureMatches methods (partialBytecodeSignaturesAt v) = true) := by
  induction order with
  | nil => simp [confirmLoop]
  | cons x rest ih =>
    rw [confirmLoop_cons]
    by_cases hx : mapGet evm x = some true ∧
        partialSignatureMatches methods (partialBytecodeSignaturesAt x) = true
    · rw [if_pos hx]
      constructor
      · intro h
        exact absurd (congrArg Prod.snd h).symm Bool.false_ne_true
      · intro h
        exact absurd hx (h x (List.mem_cons_self _ _))
    · rw [if_neg hx, ih]
      simp only [List.mem_cons, forall_eq_or_imp]
      constructor
      · intro h; exact ⟨hx, h⟩
      · intro h; exact h.2

/-- When exactly one visited version is recorded `true` and confirmed, the loop returns it
whatever the order. -/
theorem confirmLoop_unique (methods : List (List Byte)) (evm : List (String × Bool))
    (order : List String) (v : String) (hv : v ∈ order)
    (hgood : mapGet evm v = some true ∧
      partialSignatureMatches methods (partialBytecodeSignaturesAt v) = true)
    (honly : ∀ w ∈ order, (mapGet evm w = some true ∧
      partialSignatureMatches methods (partialBytecodeSignaturesAt w) = true) → w = v) :
    confirmLoop methods evm order = (v, true) := by
  induction order with
  | nil => exact absurd hv (List.not_mem_nil _)
  | cons x rest ih =>
    rw [confirmLoop_cons]
    by_cases hx : mapGet evm x = some true ∧
        partialSignatureMatches methods (partialBytecodeSignaturesAt x) = true
    · rw [if_pos hx, honly x (List.mem_cons_self _ _) hx]
    · rw [if_neg hx]
      rcases List.mem_cons.1 hv with h | h
      · subst h
        exact absurd hgood hx
      · exact ih h (fun w hw => honly w (List.mem_cons_of_mem _ hw))

/-! ## The claims on the matcher -/

theorem mem_order_of_iterationOrder (order : List String) (methods : List (List Byte))
    (horder : IterationOrder order (exactVersionMatched methods)) (v : String) :
    v ∈ order ↔ v ∈ versionKeys := by
  unfold IterationOrder at horder
  rw [mapKeys_exactVersionMatched] at horder
  exact horder.mem_iff

set_option maxRecDepth 100000 in
theorem exactVersionMatched_classWithLastExactOnly :
    exactVersionMatched classWithLastExactOnly
      = [("2.16.0", false), ("2.15.0", false), ("2.9.0-2.14.1", false), ("2.17.0", false),
         ("2.12.2", false), ("2.8.2", false), ("2.1-2.8.1", true)] := by
  decide

set_option maxRecDepth 100000 in
/-- C1 (defect of the code): on the class `classWithLastExactOnly` the matcher returns
`("2.1-2.8.1", true)` under every iteration order, although the exact rule
`{0x2a,0x2b,0xb7,0x2a,0x2c,0xb5,0xb1}`, which names "2.1-2.8.1", equals no method of the class:
`exactVersionMatched[version]` is overwritten by each rule, so only the last rule naming a
version decides. -/
theorem exact_pass_keeps_last_rule_only :
    (∀ order : List String, IterationOrder order (exactVersionMatched classWithLastExactOnly) →
      BytecodeMatchesPartialSignatures order classWithLastExactOnly = ("2.1-2.8.1", true)) ∧
    (∃ r ∈ exactMatches, "2.1-2.8.1" ∈ r.Versions ∧
      r.Match = [0x2a, 0x2b, 0xb7, 0x2a, 0x2c, 0xb5, 0xb1] ∧
      ∀ m ∈ classWithLastExactOnly, r.Match ≠ m) := by
  constructor
  · intro order horder
    unfold BytecodeMatchesPartialSignatures
    apply confirmLoop_unique
    · rw [mem_order_of_iterationOrder order _ horder]
      decide
    · rw [exactVersionMatched_classWithLastExactOnly]
      exact ⟨by decide, by decide⟩
    · rintro w _ ⟨h1, _⟩
      rw [exactVersionMatched_classWithLastExactOnly] at h1
      have := mapGet_mem _ _ _ h1
      simpa using this
  · exact ⟨⟨["2.1-2.8.1"], [0x2a, 0x2b, 0xb7, 0x2a, 0x2c, 0xb5, 0xb1]⟩, by decide, by decide,
      rfl, by decide⟩

set_option maxRecDepth 100000 in
theorem exact_pass_keeps_last_rule_only_witness :
    BytecodeMatchesPartialSignatures versionKeys classWithLastExactOnly = ("2.1-2.8.1", true) :=
  exact_pass_keeps_last_rule_only.1 versionKeys (by decide)

/-- C2 (defect of the code): `partialSignatureMatches` accepts the one-method class
`{0xbb,0x59,0xb7,0xb3,0xb1}` for the two rules of `overlappingSignature`, although two rules
cannot be assigned to different indexes of a list of one method: `matchedIndexes` is made
inside the loop over the rules, so the mark of a rule is lost before the next rule. -/
theorem partial_pass_reuses_claimed_method :
    partialSignatureMatches [[0xbb, 0x59, 0xb7, 0xb3, 0xb1]] overlappingSignature = true ∧
    ¬ DistinctAssignment [[0xbb, 0x59, 0xb7, 0xb3, 0xb1]] overlappingSignature.PartialMatches := by
  refine ⟨by decide, ?_⟩
  rintro ⟨assign, hnd, hf⟩
  have hidx : ∀ i : Nat, ∀ m : List Byte,
      ([[0xbb, 0x59, 0xb7, 0xb3, 0xb1]] : List (List Byte))[i]? = some m → i = 0 := by
    intro i m h
    cases i with
    | zero => rfl
    | succ n => simp at h
  unfold overlappingSignature at hf
  rw [List.forall₂_cons_left_iff] at hf
  obtain ⟨a, rest, ⟨m1, hm1, _⟩, hrest, rfl⟩ := hf
  rw [List.forall₂_cons_left_iff] at hrest
  obtain ⟨b, rest', ⟨m2, hm2, _⟩, _, rfl⟩ := hrest
  have ha := hidx a m1 hm1
  have hb := hidx b m2 hm2
  subst ha hb
  simp at hnd

/-- C3: when `BytecodeMatchesPartialSignatures` returns `(v, true)`, `v` is a key of
`partialBytecodeSignatures` and every partial rule of `partialBytecodeSignatures[v]` is
satisfied by some method of the list; hence a list in which some partial rule of `v` has no
satisfying method never yields `(v, true)`. -/
theorem matched_version_partial_rules_satisfied :
    (∀ (order : List String) (methods : List (List Byte)) (v : String),
      IterationOrder order (exactVersionMatched methods) →
      BytecodeMatchesPartialSignatures order methods = (v, true) →
      v ∈ mapKeys partialBytecodeSignatures ∧
      ∀ rule ∈ (partialBytecodeSignaturesAt v).PartialMatches,
        ∃ m ∈ methods, Satisfies rule m) ∧
    (∀ (order : List String) (methods : List (List Byte)) (v : String),
      IterationOrder order (exactVersionMatched methods) →
      (∃ rule ∈ (partialBytecodeSignaturesAt v).PartialMatches,
        ∀ m ∈ methods, ¬ Satisfies rule m) →
      BytecodeMatchesPartialSignatures order methods ≠ (v, true)) := by
  have main : ∀ (order : List String) (methods : List (List Byte)) (v : String),
      IterationOrder order (exactVersionMatched methods) →
      BytecodeMatchesPartialSignatures order methods = (v, true) →
      v ∈ mapKeys partialBytecodeSignatures ∧
      ∀ rule ∈ (partialBytecodeSignaturesAt v).PartialMatches,
        ∃ m ∈ methods, Satisfies rule m := by
    intro order methods v horder h
    obtain ⟨hv, _, hp⟩ := confirmLoop_true _ _ _ _ h
    rw [mem_order_of_iterationOrder order methods horder] at hv
    refine ⟨?_, (partialSignatureMatches_iff _ _).1 hp⟩
    have hsub : ∀ w ∈ versionKeys, w ∈ mapKeys partialBytecodeSignatures := by decide
    exact hsub v hv
  refine ⟨main, ?_⟩
  rintro order methods v horder ⟨rule, hrule, hno⟩ h
  obtain ⟨m, hm, hsat⟩ := (main order methods v horder h).2 rule hrule
  exact hno m hm hsat

set_option maxRecDepth 100000 in
theorem matched_version_partial_rules_satisfied_witness :
    IterationOrder versionKeys (exactVersionMatched classWithLastExactOnly) ∧
    BytecodeMatchesPartialSignatures versionKeys classWithLastExactOnly = ("2.1-2.8.1", true) ∧
    ("2.1-2.8.1" ∈ mapKeys partialBytecodeSignatures ∧
      ∀ rule ∈ (partialBytecodeSignaturesAt "2.1-2.8.1").PartialMatches,
        ∃ m ∈ classWithLastExactOnly, Satisfies rule m) :=
  ⟨by decide, by decide,
    matched_version_partial_rules_satisfied.1 versionKeys classWithLastExactOnly "2.1-2.8.1"
      (by decide) (by decide)⟩

/-- C4: for a signature of one partial rule with prefix `p` and suffix `s`,
`partialSignatureMatches` returns true exactly when some method has length at least
`len(p)+len(s)`, starts with `p` and ends with `s`; the method `p++s` matches, and a method
shorter than `len(p)+len(s)` never does, whatever its ends. -/
theorem partialSignatureMatches_single_rule (methods : List (List Byte)) (version : String)
    (p s : List Byte) :
    (partialSignatureMatches methods
        { Version := version, PartialMatches := [{ Prefix := p, Suffix := s }] } = true
      ↔ ∃ m ∈ methods, p.length + s.length ≤ m.length ∧ m.take p.length = p ∧
          m.drop (m.length - s.length) = s) ∧
    (p ++ s ∈ methods →
      partialSignatureMatches methods
        { Version := version, PartialMatches := [{ Prefix := p, Suffix := s }] } = true) ∧
    ((∀ m ∈ methods, m.length < p.length + s.length) →
      partialSignatureMatches methods
        { Version := version, PartialMatches := [{ Prefix := p, Suffix := s }] } = false) := by
  have hiff : partialSignatureMatches methods
        { Version := version, PartialMatches := [{ Prefix := p, Suffix := s }] } = true
      ↔ ∃ m ∈ methods, p.length + s.length ≤ m.length ∧ m.take p.length = p ∧
          m.drop (m.length - s.length) = s := by
    rw [partialSignatureMatches_iff]
    simp only [List.mem_singleton, forall_eq, Satisfies]
  refine ⟨hiff, ?_, ?_⟩
  · intro hmem
    rw [hiff]
    refine ⟨p ++ s, hmem, ?_, ?_, ?_⟩
    · rw [List.length_append]
    · exact List.take_left' rfl
    · rw [List.length_append, Nat.add_sub_cancel]
      exact List.drop_left' rfl
  · intro hshort
    rw [← Bool.not_eq_true, hiff]
    rintro ⟨m, hm, hlen, _, _⟩
    exact absurd hlen (Nat.not_le.2 (hshort m hm))

/-- An overlap of prefix and suffix: `{1,2,3}` starts with `{1,2}` and ends with `{2,3}`, but
is shorter than 4. -/
theorem partialSignatureMatches_single_rule_witness :
    (∀ m ∈ ([[1, 2, 3]] : List (List Byte)), m.length < [1, 2].length + [2, 3].length) ∧
    List.take 2 [1, 2, 3] = [1, 2] ∧ List.drop 1 [1, 2, 3] = [2, 3] ∧
    partialSignatureMatches [[1, 2, 3]]
      { Version := "", PartialMatches := [{ Prefix := [1, 2], Suffix := [2, 3] }] } = false :=
  ⟨by decide, rfl, rfl,
    (partialSignatureMatches_single_rule [[1, 2, 3]] "" [1, 2] [2, 3]).2.2 (by decide)⟩

/-! ### The scenario of version "2.1-2.8.1" -/

/-- No pattern of the embedded exact rules satisfies a partial rule of the embedded
signatures. -/
theorem exact_patterns_satisfy_no_partial_rule :
    ∀ r ∈ exactMatches, ∀ e ∈ partialBytecodeSignatures, ∀ rule ∈ e.2.PartialMatches,
      ¬ Satisfies rule r.Match := by
  decide

/-- The rules of `partialBytecodeSignatures[v]` are rules of an entry of the table. -/
theorem partialBytecodeSignaturesAt_rule_mem (v : String) (rule : partialMethodMatchSignature)
    (h : rule ∈ (partialBytecodeSignaturesAt v).PartialMatches) :
    ∃ e ∈ partialBytecodeSignatures, rule ∈ e.2.PartialMatches := by
  unfold partialBytecodeSignaturesAt at h
  cases hg : mapGet partialBytecodeSignatures v with
  | none =>
    rw [hg] at h
    exact absurd h (List.not_mem_nil _)
  | some sig =>
    rw [hg] at h
    exact ⟨(v, sig), mapGet_mem _ _ _ hg, h⟩

/-- C5 as the specification states it fails: the class of the scenario (the exact pattern
`{0x2a,0x2b,0xb7,0x2a,0x2c,0xb5,0xb1}` and one method for each partial rule of "2.1-2.8.1") is
not matched, since two later exact rules name "2.1-2.8.1" too and find no method. -/
theorem scenario_class_not_matched :
    classOfScenario
        = [0x2a, 0x2b, 0xb7, 0x2a, 0x2c, 0xb5, 0xb1] ::
            (partialBytecodeSignaturesAt "2.1-2.8.1").PartialMatches.map
              (fun rule => rule.Prefix ++ rule.Suffix) ∧
    IterationOrder versionKeys (exactVersionMatched classOfScenario) ∧
    BytecodeMatchesPartialSignatures versionKeys classOfScenario = (UnknownVersion, false) := by
  decide

set_option maxRecDepth 100000 in
theorem exactVersionMatched_three_exact :
    exactVersionMatched
        [[0x2a, 0x2b, 0xb7, 0x2a, 0x2c, 0xb5, 0xb1], [0x2a, 0xb4, 0x2b, 0xb9, 0xb0],
         [0x2a, 0x2b, 0x2c, 0xb7, 0xb1]]
      = [("2.16.0", false), ("2.15.0", false), ("2.9.0-2.14.1", false), ("2.17.0", false),
         ("2.12.2", false), ("2.8.2", false), ("2.1-2.8.1", true)] := by
  decide

set_option maxRecDepth 100000 in
/-- C5, amended: a method list made of the three exact patterns that name "2.1-2.8.1"
(`{0x2a,0x2b,0xb7,0x2a,0x2c,0xb5,0xb1}`, `{0x2a,0xb4,0x2b,0xb9,0xb0}`, `{0x2a,0x2b,0x2c,0xb7,0xb1}`)
and of three further methods, each satisfying one of the three partial rules of
`partialBytecodeSignatures["2.1-2.8.1"]`, in any order, is matched as `("2.1-2.8.1", true)`
under every iteration order. -/
theorem scenario_with_all_exact_patterns (order : List String) (methods : List (List Byte))
    (m1 m2 m3 : List Byte)
    (horder : IterationOrder order (exactVersionMatched methods))
    (h1 : Satisfies
      { Prefix := [0xbb, 0x59, 0xb7],
        Suffix := [0xb9, 0x19, 0xc6, 0x19, 0x19, 0xb6, 0x19, 0xb2, 0x19, 0xb8, 0xc0, 0xb0] } m1)
    (h2 : Satisfies { Prefix := [0xbb, 0x59], Suffix := [0xb7, 0xb3, 0xb1] } m2)
    (h3 : Satisfies { Prefix := [0x2a, 0xb4], Suffix := [0xb1] } m3)
    (hmethods : methods.Perm
      [[0x2a, 0x2b, 0xb7, 0x2a, 0x2c, 0xb5, 0xb1], [0x2a, 0xb4, 0x2b, 0xb9, 0xb0],
       [0x2a, 0x2b, 0x2c, 0xb7, 0xb1], m1, m2, m3]) :
    BytecodeMatchesPartialSignatures order methods = ("2.1-2.8.1", true) := by
  have hrules : (partialBytecodeSignaturesAt "2.1-2.8.1").PartialMatches
      = [{ Prefix := [0xbb, 0x59, 0xb7],
           Suffix := [0xb9, 0x19, 0xc6, 0x19, 0x19, 0xb6, 0x19, 0xb2, 0x19, 0xb8, 0xc0, 0xb0] },
         { Prefix := [0xbb, 0x59], Suffix := [0xb7, 0xb3, 0xb1] },
         { Prefix := [0x2a, 0xb4], Suffix := [0xb1] }] := by decide
  have hentry : ∀ rule ∈ (partialBytecodeSignaturesAt "2.1-2.8.1").PartialMatches,
      ∃ e ∈ partialBytecodeSignatures, rule ∈ e.2.PartialMatches :=
    fun rule h => partialBytecodeSignaturesAt_rule_mem _ rule h
  have hno : ∀ (rule : partialMethodMatchSignature) (m : List Byte),
      rule ∈ (partialBytecodeSignaturesAt "2.1-2.8.1").PartialMatches → Satisfies rule m →
      ∀ r ∈ exactMatches, r.Match ≠ m := by
    intro rule m hrule hsat r hr heq
    obtain ⟨e, he, hre⟩ := hentry rule hrule
    exact exact_patterns_satisfy_no_partial_rule r hr e he rule hre (heq ▸ hsat)
  have hevm : exactVersionMatched methods
      = [("2.16.0", false), ("2.15.0", false), ("2.9.0-2.14.1", false), ("2.17.0", false),
         ("2.12.2", false), ("2.8.2", false), ("2.1-2.8.1", true)] := by
    rw [← exactVersionMatched_three_exact]
    apply exactVersionMatched_congr
    intro r hr
    rw [hmethods.mem_iff]
    simp only [List.mem_cons, List.mem_singleton, List.not_mem_nil, or_false]
    have n1 := hno _ m1 (by rw [hrules]; simp) h1 r hr
    have n2 := hno _ m2 (by rw [hrules]; simp) h2 r hr
    have n3 := hno _ m3 (by rw [hrules]; simp) h3 r hr
    constructor
    · rintro (h | h | h | h | h | h)
      · exact Or.inl h
      · exact Or.inr (Or.inl h)
      · exact Or.inr (Or.inr h)
      · exact absurd h n1
      · exact absurd h n2
      · exact absurd h n3
    · rintro (h | h | h)
      · exact Or.inl h
      · exact Or.inr (Or.inl h)
      · exact Or.inr (Or.inr (Or.inl h))
  unfold BytecodeMatchesPartialSignatures
  apply confirmLoop_unique
  · rw [mem_order_of_iterationOrder order _ horder]
    decide
  · rw [hevm]
    refine ⟨by decide, ?_⟩
    rw [partialSignatureMatches_iff, hrules]
    intro rule hrule
    simp only [List.mem_cons, List.mem_singleton, List.not_mem_nil, or_false] at hrule
    rcases hrule with h | h | h
    · exact ⟨m1, hmethods.mem_iff.2 (by simp), h ▸ h1⟩
    · exact ⟨m2, hmethods.mem_iff.2 (by simp), h ▸ h2⟩
    · exact ⟨m3, hmethods.mem_iff.2 (by simp), h ▸ h3⟩
  · rintro w _ ⟨hw, _⟩
    rw [hevm] at hw
    have := mapGet_mem _ _ _ hw
    simpa using this

set_option maxRecDepth 100000 in
theorem scenario_with_all_exact_patterns_witness :
    BytecodeMatchesPartialSignatures versionKeys
      ([[0x2a, 0x2b, 0xb7, 0x2a, 0x2c, 0xb5, 0xb1], [0x2a, 0xb4, 0x2b, 0xb9, 0xb0],
        [0x2a, 0x2b, 0x2c, 0xb7, 0xb1]] ++ partialMethods_2_1) = ("2.1-2.8.1", true) :=
  scenario_with_all_exact_patterns versionKeys
    ([[0x2a, 0x2b, 0xb7, 0x2a, 0x2c, 0xb5, 0xb1], [0x2a, 0xb4, 0x2b, 0xb9, 0xb0],
      [0x2a, 0x2b, 0x2c, 0xb7, 0xb1]] ++ partialMethods_2_1)
    [0xbb, 0x59, 0xb7, 0xb9, 0x19, 0xc6, 0x19, 0x19, 0xb6, 0x19, 0xb2, 0x19, 0xb8, 0xc0, 0xb0]
    [0xbb, 0x59, 0xb7, 0xb3, 0xb1] [0x2a, 0xb4, 0xb1]
    (by decide) (by decide) (by decide) (by decide) (List.Perm.refl _)

/-! ### Dependence on the iteration order -/

set_option maxRecDepth 100000 in
/-- C6: with the embedded tables there are a method list and two iteration orders of
`exactVersionMatched` under which the matcher returns `true` with two different labels. -/
theorem result_label_depends_on_iteration_order :
    ∃ (methods : List (List Byte)) (order1 order2 : List String) (v1 v2 : String),
      IterationOrder order1 (exactVersionMatched methods) ∧
      IterationOrder order2 (exactVersionMatched methods) ∧
      BytecodeMatchesPartialSignatures order1 methods = (v1, true) ∧
      BytecodeMatchesPartialSignatures order2 methods = (v2, true) ∧
      v1 ≠ v2 :=
  ⟨classOfTwoVersions,
    ["2.9.0-2.14.1", "2.12.2", "2.16.0", "2.15.0", "2.17.0", "2.8.2", "2.1-2.8.1"],
    ["2.12.2", "2.9.0-2.14.1", "2.16.0", "2.15.0", "2.17.0", "2.8.2", "2.1-2.8.1"],
    "2.9.0-2.14.1", "2.12.2", by decide, by decide, by decide, by decide, by decide⟩

/-! ### Classes without an exact pattern -/

set_option maxRecDepth 100000 in
theorem exactVersionMatched_nil :
    exactVersionMatched []
      = [("2.16.0", false), ("2.15.0", false), ("2.9.0-2.14.1", false), ("2.17.0", false),
         ("2.12.2", false), ("2.8.2", false), ("2.1-2.8.1", false)] := by
  decide

/-- C7: a method list in which no method equals, as a whole, the pattern of an exact rule
is answered `(UnknownVersion, false)` under every iteration order; so is the empty list. -/
theorem no_exact_pattern_unknown :
    (∀ (order : List String) (methods : List (List Byte)),
      IterationOrder order (exactVersionMatched methods) →
      (∀ m ∈ methods, ∀ r ∈ exactMatches, r.Match ≠ m) →
      BytecodeMatchesPartialSignatures order methods = (UnknownVersion, false)) ∧
    (∀ order : List String, IterationOrder order (exactVersionMatched []) →
      BytecodeMatchesPartialSignatures order [] = (UnknownVersion, false)) := by
  have main : ∀ (order : List String) (methods : List (List Byte)),
      (∀ m ∈ methods, ∀ r ∈ exactMatches, r.Match ≠ m) →
      BytecodeMatchesPartialSignatures order methods = (UnknownVersion, false) := by
    intro order methods hno
    have hevm : exactVersionMatched methods = exactVersionMatched [] := by
      apply exactVersionMatched_congr
      intro r hr
      constructor
      · intro h
        exact absurd rfl (hno _ h r hr)
      · intro h
        exact absurd h (List.not_mem_nil _)
    unfold BytecodeMatchesPartialSignatures
    rw [confirmLoop_unknown_iff, hevm, exactVersionMatched_nil]
    rintro v _ ⟨hv, _⟩
    have := mapGet_mem _ _ _ hv
    simp at this
  exact ⟨fun order methods _ hno => main order methods hno,
    fun order _ => main order [] (fun m hm => absurd hm (List.not_mem_nil _))⟩

set_option maxRecDepth 100000 in
/-- A method that only starts with an exact pattern, or only contains one, does not
count. -/
theorem no_exact_pattern_unknown_witness :
    BytecodeMatchesPartialSignatures versionKeys
        ([[0x2a, 0x2b, 0x2c, 0xb7, 0xb1, 0x00], [0x00, 0x12, 0xb8, 0xac, 0x00]]
          ++ partialMethods_2_1) = (UnknownVersion, false) ∧
    BytecodeMatchesPartialSignatures versionKeys [] = (UnknownVersion, false) :=
  ⟨no_exact_pattern_unknown.1 versionKeys
      ([[0x2a, 0x2b, 0x2c, 0xb7, 0xb1, 0x00], [0x00, 0x12, 0xb8, 0xac, 0x00]]
        ++ partialMethods_2_1) (by decide) (by decide),
    no_exact_pattern_unknown.2 versionKeys (by decide)⟩

/-! ### Unrelated methods -/

theorem confirmLoop_congr (methods methods' : List (List Byte)) (evm : List (String × Bool))
    (order : List String)
    (h : ∀ v, partialSignatureMatches methods (partialBytecodeSignaturesAt v)
      = partialSignatureMatches methods' (partialBytecodeSignaturesAt v)) :
    confirmLoop methods evm order = confirmLoop methods' evm order := by
  induction order with
  | nil => rfl
  | cons x rest ih => rw [confirmLoop_cons, confirmLoop_cons, ih, h x]

/-- C8: inserting at any position `i` a method that equals no exact pattern and satisfies
no partial rule of the embedded signatures leaves the result unchanged, the iteration order
being fixed (it stays an iteration order of the new map). For `i ≤ len(methods)` the list
`take i ++ m :: drop i` is the insertion at position `i`; no bound on `i` is needed. -/
theorem insert_unrelated_method (order : List String) (methods : List (List Byte)) (i : Nat)
    (m : List Byte)
    (horder : IterationOrder order (exactVersionMatched methods))
    (hexact : ∀ r ∈ exactMatches, r.Match ≠ m)
    (hrules : ∀ e ∈ partialBytecodeSignatures, ∀ rule ∈ e.2.PartialMatches,
      ¬ Satisfies rule m) :
    IterationOrder order (exactVersionMatched (methods.take i ++ m :: methods.drop i)) ∧
    BytecodeMatchesPartialSignatures order (methods.take i ++ m :: methods.drop i)
      = BytecodeMatchesPartialSignatures order methods := by
  have hmem : ∀ x : List Byte,
      x ∈ methods.take i ++ m :: methods.drop i ↔ x = m ∨ x ∈ methods := by
    intro x
    conv_rhs => rw [← List.take_append_drop i methods]
    simp only [List.mem_append, List.mem_cons]
    constructor
    · rintro (h | h | h)
      · exact Or.inr (Or.inl h)
      · exact Or.inl h
      · exact Or.inr (Or.inr h)
    · rintro (h | h | h)
      · exact Or.inr (Or.inl h)
      · exact Or.inl h
      · exact Or.inr (Or.inr h)
  have hevm : exactVersionMatched (methods.take i ++ m :: methods.drop i)
      = exactVersionMatched methods := by
    apply exactVersionMatched_congr
    intro r hr
    rw [hmem]
    constructor
    · rintro (h | h)
      · exact absurd h (hexact r hr)
      · exact h
    · intro h
      exact Or.inr h
  refine ⟨by rw [hevm]; exact horder, ?_⟩
  unfold BytecodeMatchesPartialSignatures
  rw [hevm]
  apply confirmLoop_congr
  intro v
  rw [Bool.eq_iff_iff, partialSignatureMatches_iff, partialSignatureMatches_iff]
  constructor
  · intro h rule hrule
    obtain ⟨x, hx, hsat⟩ := h rule hrule
    rcases (hmem x).1 hx with hxm | hxm
    · obtain ⟨e, he, hre⟩ := partialBytecodeSignaturesAt_rule_mem v rule hrule
      exact absurd (hxm ▸ hsat) (hrules e he rule hre)
    · exact ⟨x, hxm, hsat⟩
  · intro h rule hrule
    obtain ⟨x, hx, hsat⟩ := h rule hrule
    exact ⟨x, (hmem x).2 (Or.inr hx), hsat⟩

set_option maxRecDepth 100000 in
theorem insert_unrelated_method_witness :
    BytecodeMatchesPartialSignatures versionKeys
        (classOfTwoVersions.take 3 ++ [0x00, 0xb1] :: classOfTwoVersions.drop 3)
      = BytecodeMatchesPartialSignatures versionKeys classOfTwoVersions ∧
    BytecodeMatchesPartialSignatures versionKeys classOfTwoVersions = ("2.9.0-2.14.1", true) :=
  ⟨(insert_unrelated_method versionKeys classOfTwoVersions 3 [0x00, 0xb1]
      (by decide) (by decide) (by decide)).2, by decide⟩

/-! ## The claims on the naming heuristic -/

/-- C9 (defect of the code): for the single entry `"Foo.class"` the loop counts one class and
accumulates 4, the length of `"Foo."`, while the simple class name `"Foo"` has length 3: the
code subtracts 5 from the length of the base name where `".class"` has 6 bytes. -/
theorem class_name_total_keeps_the_dot :
    stringsHasSuffix fooClass dotClass = true ∧
    (classLoopResult [{ Name := fooClass }]).classesFound = 1 ∧
    (classLoopResult [{ Name := fooClass }]).totalClassesNameSize = 4 ∧
    (simpleClassName fooClass).length = 3 ∧
    dotClass.length = 6 := by
  decide

theorem classLoop_no_class (files : List zipFile) (st : ClassLoopState)
    (h : ∀ f ∈ files, stringsHasSuffix f.Name dotClass = false) :
    classLoop files st = st := by
  induction files generalizing st with
  | nil => rfl
  | cons f rest ih =>
    unfold classLoop
    rw [h f (List.mem_cons_self _ _)]
    exact ih st (fun g hg => h g (List.mem_cons_of_mem _ hg))

/-- C10: for an entry list without a name ending in `".class"` the averages are both 0,
reached through the guard of `average` on a count of 0; and `average total 0 = 0` for
every total. -/
theorem no_class_entries_zero_averages :
    (∀ (pkgOrder : List (List Byte)) (files : List zipFile),
      (∀ f ∈ files, stringsHasSuffix f.Name dotClass = false) →
      pkgOrder.Perm (classLoopResult files).packageNames →
      (classLoopResult files).classesFound = 0 ∧
      AveragePackageAndClassLength pkgOrder files = { PackageName := 0, ClassName := 0 }) ∧
    (∀ totalSize : Nat, average totalSize 0 = 0) := by
  have havg : ∀ totalSize : Nat, average totalSize 0 = 0 := by
    intro totalSize
    unfold average
    rw [if_pos rfl]
  refine ⟨?_, havg⟩
  intro pkgOrder files hno hperm
  have hst : classLoopResult files
      = { packageNames := [], classesFound := 0, totalClassesNameSize := 0 } :=
    classLoop_no_class files _ hno
  rw [hst] at hperm
  have hnil : pkgOrder = [] := List.Perm.eq_nil hperm
  subst hnil
  refine ⟨by rw [hst], ?_⟩
  unfold AveragePackageAndClassLength
  rw [hst]
  show ({ PackageName := average 0 0, ClassName := average 0 0 } : AverageJavaNameSizes) = _
  rw [havg]

theorem no_class_entries_zero_averages_witness :
    AveragePackageAndClassLength [] [{ Name := manifestName }]
        = { PackageName := 0, ClassName := 0 } ∧
    AveragePackageAndClassLength [] [] = { PackageName := 0, ClassName := 0 } :=
  ⟨(no_class_entries_zero_averages.1 [] [{ Name := manifestName }]
      (by decide) (by decide)).2,
    (no_class_entries_zero_averages.1 [] [] (by decide) (by decide)).2⟩

/-! ## Saturating addition -/

theorem uint32_of_nonneg_lt (right : Int) (h0 : 0 ≤ right) (h1 : right < 2 ^ 32) :
    uint32 right = right.toNat := by
  unfold uint32
  rw [Int.emod_eq_of_lt h0 h1]

/-- On operands within `[0, math.MaxInt32]` the function is the sum clamped at
`math.MaxInt32`. -/
theorem addAvoidingOverflow_eq_min (left : Nat) (right : Int) (hl : left ≤ MaxInt32)
    (h0 : 0 ≤ right) (h1 : right ≤ (MaxInt32 : Int)) :
    addAvoidingOverflow left right = min (left + right.toNat) MaxInt32 := by
  have hm : MaxInt32 = 2147483647 := by decide
  rw [hm] at hl h1 ⊢
  have hr : uint32 right = right.toNat :=
    uint32_of_nonneg_lt right h0 (by norm_num; omega)
  unfold addAvoidingOverflow
  rw [hr, hm]
  have hpow : (2 : Nat) ^ 32 = 4294967296 := by norm_num
  rw [hpow]
  have hrn : right.toNat ≤ 2147483647 := by omega
  by_cases hc : left > (2147483647 + 4294967296 - right.toNat) % 4294967296
  · rw [if_pos hc]
    omega
  · rw [if_neg hc]
    omega

/-! ## Splitting an entry name -/

theorem stringsSplit_of_no_sep (sep : Byte) (t : List Byte) (h : ∀ b ∈ t, b ≠ sep) :
    stringsSplit sep t = [t] := by
  induction t with
  | nil => rfl
  | cons c cs ih =>
    have hc : c ≠ sep := h c (List.mem_cons_self _ _)
    have hcs := ih (fun b hb => h b (List.mem_cons_of_mem _ hb))
    simp only [stringsSplit, hc, if_false, hcs]

/-- The parts of a name end with a last part, and bytes appended without a separator
extend that last part only. -/
theorem stringsSplit_append_of_no_sep (sep : Byte) (s : List Byte) :
    ∃ init last, stringsSplit sep s = init ++ [last] ∧
      ∀ t : List Byte, (∀ b ∈ t, b ≠ sep) → stringsSplit sep (s ++ t) = init ++ [last ++ t] := by
  induction s with
  | nil =>
    refine ⟨[], [], rfl, ?_⟩
    intro t ht
    simpa using stringsSplit_of_no_sep sep t ht
  | cons c cs ih =>
    obtain ⟨init, last, h1, h2⟩ := ih
    by_cases hc : c = sep
    · refine ⟨[] :: init, last, ?_, ?_⟩
      · simp only [stringsSplit, hc, if_true, h1, List.cons_append]
      · intro t ht
        rw [List.cons_append, stringsSplit, if_pos hc, h2 t ht]
        rfl
    · cases init with
      | nil =>
        refine ⟨[], c :: last, ?_, ?_⟩
        · simp only [stringsSplit, hc, if_false, h1, List.nil_append]
        · intro t ht
          rw [List.cons_append, stringsSplit, if_neg hc, h2 t ht]
          rfl
      | cons i0 is =>
        refine ⟨(c :: i0) :: is, last, ?_, ?_⟩
        · simp only [stringsSplit, hc, if_false, h1, List.cons_append]
        · intro t ht
          rw [List.cons_append, stringsSplit, if_neg hc, h2 t ht]
          rfl

theorem getLastD_append_singleton (init : List (List Byte)) (last : List Byte) :
    (init ++ [last]).getLastD [] = last := by
  induction init with
  | nil => rfl
  | cons x xs ih =>
    cases xs with
    | nil => rfl
    | cons y ys => simp [List.getLastD]

theorem stringsSplit_getLastD_append (sep : Byte) (s t : List Byte) (ht : ∀ b ∈ t, b ≠ sep) :
    (stringsSplit sep (s ++ t)).getLastD [] = (stringsSplit sep s).getLastD [] ++ t := by
  obtain ⟨init, last, h1, h2⟩ := stringsSplit_append_of_no_sep sep s
  rw [h2 t ht, h1, getLastD_append_singleton, getLastD_append_singleton]

theorem length_le_of_mem_stringsSplit (sep : Byte) (s p : List Byte)
    (h : p ∈ stringsSplit sep s) : p.length ≤ s.length := by
  induction s generalizing p with
  | nil =>
    simp only [stringsSplit, List.mem_singleton] at h
    rw [h]
  | cons c cs ih =>
    by_cases hc : c = sep
    · simp only [stringsSplit, hc, if_true, List.mem_cons] at h
      rcases h with h | h
      · rw [h]; exact Nat.zero_le _
      · exact Nat.le_succ_of_le (ih p h)
    · cases hs : stringsSplit sep cs with
      | nil =>
        simp only [stringsSplit, hc, if_false, hs, List.mem_singleton] at h
        rw [h]
        simp
      | cons q qs =>
        simp only [stringsSplit, hc, if_false, hs, List.mem_cons] at h
        rcases h with h | h
        · rw [h]
          have := ih q (by rw [hs]; exact List.mem_cons_self _ _)
          simp only [List.length_cons]
          omega
        · have := ih p (by rw [hs]; exact List.mem_cons_of_mem _ h)
          simp only [List.length_cons]
          omega

theorem stringsHasSuffix_iff (s suffix : List Byte) :
    stringsHasSuffix s suffix = true ↔ ∃ pre, s = pre ++ suffix := by
  unfold stringsHasSuffix
  rw [Bool.and_eq_true, decide_eq_true_iff, decide_eq_true_iff]
  constructor
  · rintro ⟨_, h2⟩
    refine ⟨s.take (s.length - suffix.length), ?_⟩
    conv_lhs => rw [← List.take_append_drop (s.length - suffix.length) s]
    rw [h2]
  · rintro ⟨pre, rfl⟩
    refine ⟨by rw [List.length_append]; omega, ?_⟩
    rw [List.length_append, Nat.add_sub_cancel]
    exact List.drop_left' rfl

theorem dotClass_no_slash : ∀ b ∈ dotClass, b ≠ slash := by
  decide

/-- The base name of an entry whose name ends in `".class"` ends in `".class"` too, so it
has at least 6 bytes, and it is no longer than the name. -/
theorem className_length_bounds (name : List Byte)
    (h : stringsHasSuffix name dotClass = true) :
    6 ≤ ((stringsSplit slash name).getLastD []).length ∧
    ((stringsSplit slash name).getLastD []).length ≤ name.length := by
  obtain ⟨pre, rfl⟩ := (stringsHasSuffix_iff _ _).1 h
  constructor
  · rw [stringsSplit_getLastD_append slash pre dotClass dotClass_no_slash, List.length_append]
    have : dotClass.length = 6 := rfl
    omega
  · obtain ⟨init, last, h1, _⟩ := stringsSplit_append_of_no_sep slash (pre ++ dotClass)
    apply length_le_of_mem_stringsSplit slash
    rw [h1, getLastD_append_singleton]
    simp

/-! ## The accumulators of `AveragePackageAndClassLength` -/

theorem clamp_add_clamp (x y limit : Nat) :
    min (min x limit + y) limit = min (x + y) limit := by
  omega

theorem classLoop_cons_class (file : zipFile) (rest : List zipFile) (st : ClassLoopState)
    (h : stringsHasSuffix file.Name dotClass = true) :
    classLoop (file :: rest) st
      = classLoop rest
          { packageNames := (stringsSplit slash file.Name).dropLast.foldl setAdd st.packageNames
            classesFound := addAvoidingOverflow st.classesFound 1
            totalClassesNameSize := addAvoidingOverflow st.totalClassesNameSize
              ((((stringsSplit slash file.Name).getLastD []).length : Int) - 5) } := by
  rw [classLoop, if_pos h]

theorem classLoop_cons_other (file : zipFile) (rest : List zipFile) (st : ClassLoopState)
    (h : stringsHasSuffix file.Name dotClass = false) :
    classLoop (file :: rest) st = classLoop rest st := by
  rw [classLoop, if_neg (by rw [h]; exact Bool.false_ne_true)]

theorem classLoop_append (files1 files2 : List zipFile) (st : ClassLoopState) :
    classLoop (files1 ++ files2) st = classLoop files2 (classLoop files1 st) := by
  induction files1 generalizing st with
  | nil => rfl
  | cons f rest ih =>
    cases h : stringsHasSuffix f.Name dotClass with
    | true => rw [List.cons_append, classLoop_cons_class _ _ _ h, classLoop_cons_class _ _ _ h, ih]
    | false => rw [List.cons_append, classLoop_cons_other _ _ _ h, classLoop_cons_other _ _ _ h, ih]

theorem trueClassCount_cons (file : zipFile) (rest : List zipFile) :
    trueClassCount (file :: rest)
      = (if stringsHasSuffix file.Name dotClass = true then 1 else 0) + trueClassCount rest := by
  unfold trueClassCount
  rw [List.filter_cons]
  split
  · rw [List.length_cons]; omega
  · omega

theorem trueClassNameTotal_cons (file : zipFile) (rest : List zipFile) :
    trueClassNameTotal (file :: rest)
      = (if stringsHasSuffix file.Name dotClass = true
          then ((stringsSplit slash file.Name).getLastD []).length - 5 else 0)
        + trueClassNameTotal rest := by
  unfold trueClassNameTotal
  rw [List.filter_cons]
  split
  · rw [List.map_cons, List.sum_cons]
  · omega

/-- While every name is at most `math.MaxInt32` bytes long, the class count and the class
name total of the first loop are the exact count and the exact total, clamped at
`math.MaxInt32`. -/
theorem classLoop_accumulators (files : List zipFile) (st : ClassLoopState)
    (hc : st.classesFound ≤ MaxInt32) (ht : st.totalClassesNameSize ≤ MaxInt32)
    (hnames : ∀ f ∈ files, f.Name.length ≤ MaxInt32) :
    (classLoop files st).classesFound
        = min (st.classesFound + trueClassCount files) MaxInt32 ∧
    (classLoop files st).totalClassesNameSize
        = min (st.totalClassesNameSize + trueClassNameTotal files) MaxInt32 := by
  induction files generalizing st with
  | nil =>
    simp only [classLoop, trueClassCount, trueClassNameTotal, List.filter_nil, List.length_nil,
      List.map_nil, List.sum_nil, Nat.add_zero]
    exact ⟨(Nat.min_eq_left hc).symm, (Nat.min_eq_left ht).symm⟩
  | cons f rest ih =>
    have hrest : ∀ g ∈ rest, g.Name.length ≤ MaxInt32 :=
      fun g hg => hnames g (List.mem_cons_of_mem _ hg)
    cases h : stringsHasSuffix f.Name dotClass with
    | false =>
      rw [classLoop_cons_other _ _ _ h, trueClassCount_cons, trueClassNameTotal_cons, h]
      simp only [Bool.false_eq_true, if_false, Nat.zero_add]
      exact ih st hc ht hrest
    | true =>
      obtain ⟨h6, hle⟩ := className_length_bounds f.Name h
      have hf := hnames f (List.mem_cons_self _ _)
      have hm : MaxInt32 = 2147483647 := by decide
      have e1 : addAvoidingOverflow st.classesFound 1 = min (st.classesFound + 1) MaxInt32 := by
        have := addAvoidingOverflow_eq_min st.classesFound 1 hc (by decide)
          (by rw [hm]; norm_num)
        simpa using this
      have e2 : addAvoidingOverflow st.totalClassesNameSize
            ((((stringsSplit slash f.Name).getLastD []).length : Int) - 5)
          = min (st.totalClassesNameSize
              + (((stringsSplit slash f.Name).getLastD []).length - 5)) MaxInt32 := by
        have := addAvoidingOverflow_eq_min st.totalClassesNameSize
          ((((stringsSplit slash f.Name).getLastD []).length : Int) - 5) ht
          (by omega) (by rw [hm] at hf ⊢; omega)
        rw [this]
        congr 2
        omega
      rw [classLoop_cons_class _ _ _ h, trueClassCount_cons, trueClassNameTotal_cons, h]
      simp only [if_true]
      have := ih
        { packageNames := (stringsSplit slash f.Name).dropLast.foldl setAdd st.packageNames
          classesFound := addAvoidingOverflow st.classesFound 1
          totalClassesNameSize := addAvoidingOverflow st.totalClassesNameSize
            ((((stringsSplit slash f.Name).getLastD []).length : Int) - 5) }
        (by rw [e1]; exact Nat.min_le_right _ _) (by rw [e2]; exact Nat.min_le_right _ _) hrest
      rw [this.1, this.2]
      simp only [e1, e2]
      rw [clamp_add_clamp, clamp_add_clamp, Nat.add_assoc, Nat.add_assoc]
      exact ⟨rfl, rfl⟩

theorem classLoopResult_accumulators (files : List zipFile)
    (hnames : ∀ f ∈ files, f.Name.length ≤ MaxInt32) :
    (classLoopResult files).classesFound = min (trueClassCount files) MaxInt32 ∧
    (classLoopResult files).totalClassesNameSize = min (trueClassNameTotal files) MaxInt32 := by
  have := classLoop_accumulators files
    { packageNames := [], classesFound := 0, totalClassesNameSize := 0 }
    (Nat.zero_le _) (Nat.zero_le _) hnames
  simpa [classLoopResult] using this

theorem packageLoop_cons (name : List Byte) (rest : List (List Byte)) (a b : Nat) :
    packageLoop (name :: rest) (a, b)
      = packageLoop rest (addAvoidingOverflow a 1, addAvoidingOverflow b (name.length : Int)) :=
  rfl

/-- While every package name is at most `math.MaxInt32` bytes long, the package count and
the package name total of the second loop are the exact ones, clamped at
`math.MaxInt32`. -/
theorem packageLoop_accumulators (names : List (List Byte)) (a b : Nat)
    (ha : a ≤ MaxInt32) (hb : b ≤ MaxInt32) (hnames : ∀ n ∈ names, n.length ≤ MaxInt32) :
    packageLoop names (a, b)
      = (min (a + names.length) MaxInt32, min (b + (names.map List.length).sum) MaxInt32) := by
  induction names generalizing a b with
  | nil =>
    simp only [packageLoop, List.length_nil, List.map_nil, List.sum_nil, Nat.add_zero]
    rw [Nat.min_eq_left ha, Nat.min_eq_left hb]
  | cons n rest ih =>
    have hm : MaxInt32 = 2147483647 := by decide
    have hn := hnames n (List.mem_cons_self _ _)
    have e1 : addAvoidingOverflow a 1 = min (a + 1) MaxInt32 := by
      have := addAvoidingOverflow_eq_min a 1 ha (by decide) (by rw [hm]; norm_num)
      simpa using this
    have e2 : addAvoidingOverflow b (n.length : Int) = min (b + n.length) MaxInt32 := by
      have := addAvoidingOverflow_eq_min b (n.length : Int) hb (by omega)
        (by rw [hm] at hn ⊢; omega)
      simpa using this
    rw [packageLoop_cons, ih _ _ (by rw [e1]; exact Nat.min_le_right _ _)
      (by rw [e2]; exact Nat.min_le_right _ _)
      (fun x hx => hnames x (List.mem_cons_of_mem _ hx)), e1, e2]
    simp only [List.length_cons, List.map_cons, List.sum_cons]
    rw [clamp_add_clamp, clamp_add_clamp, Nat.add_assoc, Nat.add_assoc, Nat.add_comm 1]

theorem MaxInt32_eq : MaxInt32 = 2147483647 := by
  decide

theorem trueClassCount_append (files1 files2 : List zipFile) :
    trueClassCount (files1 ++ files2) = trueClassCount files1 + trueClassCount files2 := by
  unfold trueClassCount
  rw [List.filter_append, List.length_append]

theorem trueClassNameTotal_append (files1 files2 : List zipFile) :
    trueClassNameTotal (files1 ++ files2)
      = trueClassNameTotal files1 + trueClassNameTotal files2 := by
  unfold trueClassNameTotal
  rw [List.filter_append, List.map_append, List.sum_append]

theorem mem_foldl_setAdd (l s : List (List Byte)) (x : List Byte) :
    x ∈ l.foldl setAdd s ↔ x ∈ s ∨ x ∈ l := by
  induction l generalizing s with
  | nil => simp
  | cons y ys ih =>
    rw [List.foldl_cons, ih]
    unfold setAdd
    by_cases hy : y ∈ s
    · rw [if_pos hy, List.mem_cons]
      constructor
      · rintro (h | h)
        · exact Or.inl h
        · exact Or.inr (Or.inr h)
      · rintro (h | h | h)
        · exact Or.inl h
        · exact Or.inl (h ▸ hy)
        · exact Or.inr h
    · rw [if_neg hy, List.mem_append, List.mem_singleton, List.mem_cons]
      constructor
      · rintro ((h | h) | h)
        · exact Or.inl h
        · exact Or.inr (Or.inl h)
        · exact Or.inr (Or.inr h)
      · rintro (h | h | h)
        · exact Or.inl (Or.inl h)
        · exact Or.inl (Or.inr h)
        · exact Or.inr h

/-- Every package name collected by the first loop is a part of the name of an entry. -/
theorem mem_packageNames (files : List zipFile) (st : ClassLoopState) (x : List Byte)
    (h : x ∈ (classLoop files st).packageNames) :
    x ∈ st.packageNames ∨ ∃ f ∈ files, x ∈ stringsSplit slash f.Name := by
  induction files generalizing st with
  | nil => exact Or.inl h
  | cons f rest ih =>
    cases hs : stringsHasSuffix f.Name dotClass with
    | false =>
      rw [classLoop_cons_other _ _ _ hs] at h
      rcases ih st h with h' | ⟨g, hg, hx⟩
      · exact Or.inl h'
      · exact Or.inr ⟨g, List.mem_cons_of_mem _ hg, hx⟩
    | true =>
      rw [classLoop_cons_class _ _ _ hs] at h
      rcases ih _ h with h' | ⟨g, hg, hx⟩
      · rcases (mem_foldl_setAdd _ _ _).1 h' with h'' | h''
        · exact Or.inl h''
        · exact Or.inr ⟨f, List.mem_cons_self _ _, List.mem_of_mem_dropLast h''⟩
      · exact Or.inr ⟨g, List.mem_cons_of_mem _ hg, hx⟩

/-- C11: on operands in `[0, 2^31-1]`, `addAvoidingOverflow` is the exact sum clamped at
`2^31-1`, so its result is at least `left` and at most `2^31-1`; and, the entry names being
at most `2^31-1` bytes long, each accumulator of `AveragePackageAndClassLength` (class count,
class name total, package count, package name total) stays at most `2^31-1` and never
decreases from one point of its loop to a later one. -/
theorem addAvoidingOverflow_saturates :
    (∀ (left : Nat) (right : Int), left ≤ 2 ^ 31 - 1 → 0 ≤ right → right ≤ 2 ^ 31 - 1 →
      (addAvoidingOverflow left right : Int) = min ((left : Int) + right) (2 ^ 31 - 1) ∧
      left ≤ addAvoidingOverflow left right ∧
      addAvoidingOverflow left right ≤ 2 ^ 31 - 1) ∧
    (∀ files1 files2 : List zipFile,
      (∀ f ∈ files1 ++ files2, f.Name.length ≤ 2 ^ 31 - 1) →
      (classLoopResult files1).classesFound
          ≤ (classLoopResult (files1 ++ files2)).classesFound ∧
      (classLoopResult (files1 ++ files2)).classesFound ≤ 2 ^ 31 - 1 ∧
      (classLoopResult files1).totalClassesNameSize
          ≤ (classLoopResult (files1 ++ files2)).totalClassesNameSize ∧
      (classLoopResult (files1 ++ files2)).totalClassesNameSize ≤ 2 ^ 31 - 1) ∧
    (∀ (files : List zipFile) (order1 order2 : List (List Byte)),
      (∀ f ∈ files, f.Name.length ≤ 2 ^ 31 - 1) →
      (order1 ++ order2).Perm (classLoopResult files).packageNames →
      (packageLoop order1 (0, 0)).1 ≤ (packageLoop (order1 ++ order2) (0, 0)).1 ∧
      (packageLoop (order1 ++ order2) (0, 0)).1 ≤ 2 ^ 31 - 1 ∧
      (packageLoop order1 (0, 0)).2 ≤ (packageLoop (order1 ++ order2) (0, 0)).2 ∧
      (packageLoop (order1 ++ order2) (0, 0)).2 ≤ 2 ^ 31 - 1) := by
  refine ⟨?_, ?_, ?_⟩
  · intro left right hl h0 h1
    have hl' : left ≤ MaxInt32 := hl
    have h1' : right ≤ (MaxInt32 : Int) := by
      rw [MaxInt32_eq]
      norm_num at h1 ⊢
      exact h1
    have e := addAvoidingOverflow_eq_min left right hl' h0 h1'
    have hle : addAvoidingOverflow left right ≤ MaxInt32 := by
      rw [e]; exact Nat.min_le_right _ _
    have hge : left ≤ addAvoidingOverflow left right := by
      rw [e]; exact Nat.le_min.2 ⟨Nat.le_add_right _ _, hl'⟩
    refine ⟨?_, hge, hle⟩
    rw [e]
    have hcast : ((right.toNat : Nat) : Int) = right := Int.toNat_of_nonneg h0
    have hM : ((MaxInt32 : Nat) : Int) = 2 ^ 31 - 1 := by
      rw [MaxInt32_eq]; norm_num
    rw [Nat.cast_min, Nat.cast_add, hcast, hM]
  · intro files1 files2 hnames
    have hn1 : ∀ f ∈ files1, f.Name.length ≤ MaxInt32 :=
      fun f hf => hnames f (List.mem_append_left _ hf)
    have hn12 : ∀ f ∈ files1 ++ files2, f.Name.length ≤ MaxInt32 := hnames
    obtain ⟨c1, t1⟩ := classLoopResult_accumulators files1 hn1
    obtain ⟨c12, t12⟩ := classLoopResult_accumulators (files1 ++ files2) hn12
    rw [c1, t1, c12, t12, trueClassCount_append, trueClassNameTotal_append]
    exact ⟨min_le_min (Nat.le_add_right _ _) (le_refl _), Nat.min_le_right _ _,
      min_le_min (Nat.le_add_right _ _) (le_refl _), Nat.min_le_right _ _⟩
  · intro files order1 order2 hnames hperm
    have hlen : ∀ n ∈ order1 ++ order2, n.length ≤ MaxInt32 := by
      intro n hn
      rcases mem_packageNames files _ n (hperm.mem_iff.1 hn) with h | ⟨f, hf, hx⟩
      · exact absurd h (List.not_mem_nil _)
      · exact le_trans (length_le_of_mem_stringsSplit slash _ _ hx) (hnames f hf)
    have e1 := packageLoop_accumulators order1 0 0 (Nat.zero_le _) (Nat.zero_le _)
      (fun n hn => hlen n (List.mem_append_left _ hn))
    have e12 := packageLoop_accumulators (order1 ++ order2) 0 0 (Nat.zero_le _) (Nat.zero_le _)
      hlen
    rw [e1, e12, List.length_append, List.map_append, List.sum_append]
    simp only [Nat.zero_add]
    exact ⟨min_le_min (Nat.le_add_right _ _) (le_refl _), Nat.min_le_right _ _,
      min_le_min (Nat.le_add_right _ _) (le_refl _), Nat.min_le_right _ _⟩

theorem addAvoidingOverflow_saturates_witness :
    2147483646 ≤ addAvoidingOverflow 2147483646 5 ∧
    addAvoidingOverflow 2147483646 5 ≤ 2 ^ 31 - 1 :=
  (addAvoidingOverflow_saturates.1 2147483646 5 (by norm_num) (by norm_num)
    (by norm_num)).2

/-- C13 (defect of the code): `addAvoidingOverflow(2147483647, 1)` is `2147483647` although
the exact sum, `2147483648`, fits a `uint32`: the limit compared against and returned is
`math.MaxInt32`, where the accumulators are `uint32` and the documentation speaks of
exceeding a `uint32`. -/
theorem addAvoidingOverflow_limit_is_MaxInt32 :
    (2147483647 : Int) + 1 ≤ 2 ^ 32 - 1 ∧
    addAvoidingOverflow 2147483647 1 = 2147483647 ∧
    addAvoidingOverflow 2147483647 1 ≠ 2147483647 + 1 := by
  have h : addAvoidingOverflow 2147483647 1 = 2147483647 := by
    have := addAvoidingOverflow_eq_min 2147483647 1 (by rw [MaxInt32_eq]) (by norm_num)
      (by rw [MaxInt32_eq]; norm_num)
    rw [this, MaxInt32_eq]
    norm_num
  refine ⟨by norm_num, h, ?_⟩
  rw [h]
  norm_num

/-! ### A saturated total against the exact total -/

/-- For an entry list (names of at most `math.MaxInt32` bytes) in which the class name
total saturates while the class count does not, the exact quotient of the accumulated total
by the accumulated count is strictly below the quotient of the exact total by the exact
count. This is a statement on the two accumulators, before `average` divides them in
`float32`. -/
theorem saturated_total_quotient_lt (files : List zipFile)
    (hnames : ∀ f ∈ files, f.Name.length ≤ MaxInt32)
    (hcount : trueClassCount files ≤ MaxInt32)
    (htotal : MaxInt32 < trueClassNameTotal files) :
    ((classLoopResult files).totalClassesNameSize : ℚ)
        / ((classLoopResult files).classesFound : ℚ)
      < (trueClassNameTotal files : ℚ) / (trueClassCount files : ℚ) := by
  have hpos : 0 < trueClassCount files := by
    apply Nat.pos_of_ne_zero
    intro hzero
    unfold trueClassCount at hzero
    have hnil := List.eq_nil_of_length_eq_zero hzero
    unfold trueClassNameTotal at htotal
    rw [hnil] at htotal
    exact absurd htotal (Nat.not_lt_zero _)
  obtain ⟨c, t⟩ := classLoopResult_accumulators files hnames
  rw [c, t, Nat.min_eq_left hcount, Nat.min_eq_right (Nat.le_of_lt htotal)]
  have hc : (0 : ℚ) < (trueClassCount files : ℚ) := Nat.cast_pos.2 hpos
  have ht : ((MaxInt32 : Nat) : ℚ) < (trueClassNameTotal files : ℚ) := Nat.cast_lt.2 htotal
  exact div_lt_div_of_pos_right ht hc

theorem longClassName_no_slash : ∀ b ∈ longClassName, b ≠ slash := by
  intro b hb
  unfold longClassName at hb
  rcases List.mem_append.1 hb with h | h
  · rw [List.eq_of_mem_replicate h]
    decide
  · exact dotClass_no_slash b h

theorem longClassName_hasSuffix : stringsHasSuffix longClassName dotClass = true :=
  (stringsHasSuffix_iff _ _).2 ⟨List.replicate 65529 0x61, rfl⟩

theorem longClassName_base :
    (stringsSplit slash longClassName).getLastD [] = longClassName := by
  rw [stringsSplit_of_no_sep slash longClassName longClassName_no_slash]
  rfl

theorem longClassName_length : longClassName.length = 65535 := by
  unfold longClassName
  rw [List.length_append, List.length_replicate]
  rfl

theorem trueClassCount_replicate (n : Nat) (name : List Byte)
    (h : stringsHasSuffix name dotClass = true) :
    trueClassCount (List.replicate n { Name := name }) = n := by
  induction n with
  | zero => rfl
  | succ k ih =>
    rw [List.replicate_succ, trueClassCount_cons, if_pos h, ih, Nat.add_comm]

theorem trueClassNameTotal_replicate (n : Nat) (name : List Byte)
    (h : stringsHasSuffix name dotClass = true) :
    trueClassNameTotal (List.replicate n { Name := name })
      = n * (((stringsSplit slash name).getLastD []).length - 5) := by
  induction n with
  | zero => simp [trueClassNameTotal]
  | succ k ih =>
    rw [List.replicate_succ, trueClassNameTotal_cons, if_pos h, ih, Nat.succ_mul, Nat.add_comm]

theorem simpleNameTotal_replicate (n : Nat) (name : List Byte)
    (h : stringsHasSuffix name dotClass = true) :
    simpleNameTotal (List.replicate n { Name := name })
      = n * (simpleClassName name).length := by
  induction n with
  | zero => simp [simpleNameTotal]
  | succ k ih =>
    have hcons : simpleNameTotal ({ Name := name } :: List.replicate k { Name := name })
        = (simpleClassName name).length
          + simpleNameTotal (List.replicate k { Name := name }) := by
      unfold simpleNameTotal
      rw [List.filter_cons, if_pos h, List.map_cons, List.sum_cons]
    rw [List.replicate_succ, hcons, ih, Nat.succ_mul, Nat.add_comm]

theorem simpleClassName_longClassName : (simpleClassName longClassName).length = 65529 := by
  have h6 : dotClass.length = 6 := rfl
  show (List.take (((stringsSplit slash longClassName).getLastD []).length - dotClass.length)
    ((stringsSplit slash longClassName).getLastD [])).length = 65529
  rw [longClassName_base, longClassName_length, h6, List.length_take, longClassName_length]
  norm_num

theorem manyLongEntries_exact :
    (∀ f ∈ manyLongEntries, f.Name.length = 65535) ∧
    trueClassCount manyLongEntries = 32800 ∧
    trueClassNameTotal manyLongEntries = 32800 * 65530 ∧
    simpleNameTotal manyLongEntries = 32800 * 65529 := by
  have hlen : ∀ f ∈ manyLongEntries, f.Name.length = 65535 := by
    intro f hf
    rw [List.eq_of_mem_replicate hf]
    exact longClassName_length
  have hcount : trueClassCount manyLongEntries = 32800 :=
    trueClassCount_replicate 32800 longClassName longClassName_hasSuffix
  have htotal : trueClassNameTotal manyLongEntries = 32800 * 65530 := by
    have := trueClassNameTotal_replicate 32800 longClassName longClassName_hasSuffix
    rw [longClassName_base, longClassName_length] at this
    exact this
  have hsimple : simpleNameTotal manyLongEntries = 32800 * 65529 := by
    have := simpleNameTotal_replicate 32800 longClassName longClassName_hasSuffix
    rw [simpleClassName_longClassName] at this
    exact this
  exact ⟨hlen, hcount, htotal, hsimple⟩

theorem manyLongEntries_names_le : ∀ f ∈ manyLongEntries, f.Name.length ≤ MaxInt32 := by
  intro f hf
  rw [manyLongEntries_exact.1 f hf, MaxInt32_eq]
  norm_num

/-- C12 (the code against its documentation): for an archive of 32800 entries whose names
are 65535 bytes long and end in `".class"`, the class count, 32800, is exact and the class
name total saturates at 2147483647 (the exact total is 32800 * 65530, and the simple names
sum to 32800 * 65529). The exact quotient of the accumulated total by the accumulated count
is more than 56 below the quotient of either exact total by the exact count, and so is the
quotient of 2147483648, the `float32` nearest to the accumulated total: the saturated length
sum puts the `ClassName` average below the real value, where the documentation of
`AveragePackageAndClassLength` says above. -/
theorem saturated_total_biases_average_low :
    (∀ f ∈ manyLongEntries, f.Name.length = 65535) ∧
    trueClassCount manyLongEntries = 32800 ∧
    trueClassNameTotal manyLongEntries = 32800 * 65530 ∧
    simpleNameTotal manyLongEntries = 32800 * 65529 ∧
    (classLoopResult manyLongEntries).classesFound = 32800 ∧
    (classLoopResult manyLongEntries).totalClassesNameSize = 2147483647 ∧
    ((classLoopResult manyLongEntries).totalClassesNameSize : ℚ)
        / ((classLoopResult manyLongEntries).classesFound : ℚ) + 56
      < (simpleNameTotal manyLongEntries : ℚ) / (trueClassCount manyLongEntries : ℚ) ∧
    ((classLoopResult manyLongEntries).totalClassesNameSize : ℚ)
        / ((classLoopResult manyLongEntries).classesFound : ℚ) + 56
      < (trueClassNameTotal manyLongEntries : ℚ) / (trueClassCount manyLongEntries : ℚ) ∧
    (2147483648 : ℚ) / ((classLoopResult manyLongEntries).classesFound : ℚ) + 56
      < (simpleNameTotal manyLongEntries : ℚ) / (trueClassCount manyLongEntries : ℚ) := by
  obtain ⟨hlen, hcount, htotal, hsimple⟩ := manyLongEntries_exact
  obtain ⟨c, t⟩ := classLoopResult_accumulators manyLongEntries manyLongEntries_names_le
  rw [hcount] at c
  rw [htotal] at t
  have c' : (classLoopResult manyLongEntries).classesFound = 32800 := by
    rw [c, MaxInt32_eq]
    norm_num
  have t' : (classLoopResult manyLongEntries).totalClassesNameSize = 2147483647 := by
    rw [t, MaxInt32_eq]
    norm_num
  refine ⟨hlen, hcount, htotal, hsimple, c', t', ?_, ?_, ?_⟩
  · rw [c', t', hsimple, hcount]
    norm_num
  · rw [c', t', htotal, hcount]
    norm_num
  · rw [c', hsimple, hcount]
    norm_num

/-! ## What the exact pass records for a version -/

theorem mapGet_exactPassByMembership (methods : List (List Byte)) (rules : List exactMatch)
    (evm : List (String × Bool)) (v : String) :
    mapGet (exactPassByMembership methods rules evm) v
      = match lastRuleNaming v rules with
        | some r => some (decide (r.Match ∈ methods))
        | none => mapGet evm v := by
  induction rules generalizing evm with
  | nil => rfl
  | cons r rest ih =>
    rw [exactPassByMembership_cons, ih, lastRuleNaming]
    cases hl : lastRuleNaming v rest with
    | some later => rfl
    | none =>
      show mapGet (recordVersions evm (decide (r.Match ∈ methods)) r.Versions) v = _
      rw [mapGet_recordVersions]
      by_cases hv : v ∈ r.Versions
      · rw [if_pos hv]
        simp only [hv, if_true]
      · rw [if_neg hv]
        simp only [hv, if_false]

/-- On the embedded table the record of a version is the outcome of the last rule that
names it: whether that rule's pattern is one of the methods. -/
theorem mapGet_exactVersionMatched (methods : List (List Byte)) (v : String) :
    mapGet (exactVersionMatched methods) v
      = (lastRuleNaming v exactMatches).map fun r => decide (r.Match ∈ methods) := by
  rw [exactVersionMatched_eq, mapGet_exactPassByMembership]
  cases lastRuleNaming v exactMatches with
  | some r => rfl
  | none => rfl

theorem mem_versionKeys_of_mapGet (methods : List (List Byte)) (v : String) (b : Bool)
    (h : mapGet (exactVersionMatched methods) v = some b) : v ∈ versionKeys := by
  have hmem : v ∈ mapKeys (exactVersionMatched methods) :=
    List.mem_map_of_mem Prod.fst (mapGet_mem _ _ _ h)
  rw [mapKeys_exactVersionMatched] at hmem
  exact hmem

/-- Some iteration order returns `(v, true)` exactly when `v` is recorded `true` and
confirmed. -/
theorem exists_order_iff (methods : List (List Byte)) (v : String) :
    (∃ order, IterationOrder order (exactVersionMatched methods) ∧
        BytecodeMatchesPartialSignatures order methods = (v, true))
      ↔ mapGet (exactVersionMatched methods) v = some true ∧
        partialSignatureMatches methods (partialBytecodeSignaturesAt v) = true := by
  constructor
  · rintro ⟨order, _, h⟩
    exact (confirmLoop_true _ _ _ _ h).2
  · intro h
    have hv : v ∈ versionKeys := mem_versionKeys_of_mapGet methods v true h.1
    refine ⟨v :: versionKeys.erase v, ?_, ?_⟩
    · unfold IterationOrder
      rw [mapKeys_exactVersionMatched]
      exact (List.perm_cons_erase hv).symm
    · unfold BytecodeMatchesPartialSignatures
      rw [confirmLoop_cons, if_pos h]

set_option maxRecDepth 100000 in
theorem lastRuleNaming_2_12_2 :
    lastRuleNaming "2.12.2" exactMatches = lastRuleNaming "2.9.0-2.14.1" exactMatches ∧
    partialBytecodeSignaturesAt "2.12.2" = partialBytecodeSignaturesAt "2.9.0-2.14.1" := by
  decide

/-- C14: for every method list, some iteration order returns `("2.12.2", true)` exactly when
some iteration order returns `("2.9.0-2.14.1", true)`. -/
theorem cannot_tell_2_12_2_from_2_9_0 (methods : List (List Byte)) :
    (∃ order, IterationOrder order (exactVersionMatched methods) ∧
        BytecodeMatchesPartialSignatures order methods = ("2.12.2", true))
      ↔ (∃ order, IterationOrder order (exactVersionMatched methods) ∧
        BytecodeMatchesPartialSignatures order methods = ("2.9.0-2.14.1", true)) := by
  rw [exists_order_iff, exists_order_iff, mapGet_exactVersionMatched,
    mapGet_exactVersionMatched, lastRuleNaming_2_12_2.1, lastRuleNaming_2_12_2.2]

/-! ### Order of the methods, order of the versions -/

theorem result_of_same_members (order : List String) (methods1 methods2 : List (List Byte))
    (h : ∀ x, x ∈ methods1 ↔ x ∈ methods2) :
    exactVersionMatched methods1 = exactVersionMatched methods2 ∧
    BytecodeMatchesPartialSignatures order methods1
      = BytecodeMatchesPartialSignatures order methods2 := by
  have hevm : exactVersionMatched methods1 = exactVersionMatched methods2 :=
    exactVersionMatched_congr _ _ (fun r _ => h r.Match)
  refine ⟨hevm, ?_⟩
  unfold BytecodeMatchesPartialSignatures
  rw [hevm]
  apply confirmLoop_congr
  intro v
  rw [Bool.eq_iff_iff, partialSignatureMatches_iff, partialSignatureMatches_iff]
  constructor
  · intro hr rule hrule
    obtain ⟨m, hm, hs⟩ := hr rule hrule
    exact ⟨m, (h m).1 hm, hs⟩
  · intro hr rule hrule
    obtain ⟨m, hm, hs⟩ := hr rule hrule
    exact ⟨m, (h m).2 hm, hs⟩

/-- C17: with the embedded tables and a fixed iteration order, two method lists that are
permutations of each other get the same result (and the order is an iteration order for
both); more generally the result is the same for two lists in which the same byte sequences
occur. -/
theorem result_invariant_under_permutation :
    (∀ (order : List String) (methods1 methods2 : List (List Byte)),
      methods1.Perm methods2 →
      IterationOrder order (exactVersionMatched methods1) →
      IterationOrder order (exactVersionMatched methods2) ∧
      BytecodeMatchesPartialSignatures order methods1
        = BytecodeMatchesPartialSignatures order methods2) ∧
    (∀ (order : List String) (methods1 methods2 : List (List Byte)),
      (∀ x, x ∈ methods1 ↔ x ∈ methods2) →
      IterationOrder order (exactVersionMatched methods1) →
      IterationOrder order (exactVersionMatched methods2) ∧
      BytecodeMatchesPartialSignatures order methods1
        = BytecodeMatchesPartialSignatures order methods2) := by
  have main : ∀ (order : List String) (methods1 methods2 : List (List Byte)),
      (∀ x, x ∈ methods1 ↔ x ∈ methods2) →
      IterationOrder order (exactVersionMatched methods1) →
      IterationOrder order (exactVersionMatched methods2) ∧
      BytecodeMatchesPartialSignatures order methods1
        = BytecodeMatchesPartialSignatures order methods2 := by
    intro order methods1 methods2 h horder
    obtain ⟨hevm, hres⟩ := result_of_same_members order methods1 methods2 h
    exact ⟨hevm ▸ horder, hres⟩
  exact ⟨fun order methods1 methods2 hperm horder =>
    main order methods1 methods2 (fun _ => hperm.mem_iff) horder, main⟩

set_option maxRecDepth 100000 in
theorem result_invariant_under_permutation_witness :
    BytecodeMatchesPartialSignatures versionKeys classOfTwoVersions
      = BytecodeMatchesPartialSignatures versionKeys classOfTwoVersions.reverse ∧
    BytecodeMatchesPartialSignatures versionKeys classOfTwoVersions = ("2.9.0-2.14.1", true) :=
  ⟨(result_invariant_under_permutation.1 versionKeys classOfTwoVersions
      classOfTwoVersions.reverse (List.reverse_perm _).symm (by decide)).2, by decide⟩

theorem confirmLoop_cases (methods : List (List Byte)) (evm : List (String × Bool))
    (order : List String) :
    confirmLoop methods evm order = (UnknownVersion, false) ∨
      ∃ v, confirmLoop methods evm order = (v, true) := by
  induction order with
  | nil => exact Or.inl rfl
  | cons x rest ih =>
    rw [confirmLoop_cons]
    by_cases hx : mapGet evm x = some true ∧
        partialSignatureMatches methods (partialBytecodeSignaturesAt x) = true
    · rw [if_pos hx]
      exact Or.inr ⟨x, rfl⟩
    · rw [if_neg hx]
      exact ih

/-- C18: under an iteration order the boolean of the result is `true` exactly when some
version is recorded `true` by the exact pass and confirmed by `partialSignatureMatches`, so
it is the same under every iteration order; and a result with `false` carries
`UnknownVersion`. -/
theorem matched_flag_independent_of_order :
    (∀ (order : List String) (methods : List (List Byte)),
      IterationOrder order (exactVersionMatched methods) →
      ((BytecodeMatchesPartialSignatures order methods).2 = true ↔
        ∃ v, mapGet (exactVersionMatched methods) v = some true ∧
          partialSignatureMatches methods (partialBytecodeSignaturesAt v) = true)) ∧
    (∀ (order1 order2 : List String) (methods : List (List Byte)),
      IterationOrder order1 (exactVersionMatched methods) →
      IterationOrder order2 (exactVersionMatched methods) →
      (BytecodeMatchesPartialSignatures order1 methods).2
        = (BytecodeMatchesPartialSignatures order2 methods).2) ∧
    (∀ (order : List String) (methods : List (List Byte)),
      (BytecodeMatchesPartialSignatures order methods).2 = false →
      (BytecodeMatchesPartialSignatures order methods).1 = UnknownVersion) := by
  have main : ∀ (order : List String) (methods : List (List Byte)),
      IterationOrder order (exactVersionMatched methods) →
      ((BytecodeMatchesPartialSignatures order methods).2 = true ↔
        ∃ v, mapGet (exactVersionMatched methods) v = some true ∧
          partialSignatureMatches methods (partialBytecodeSignaturesAt v) = true) := by
    intro order methods horder
    unfold BytecodeMatchesPartialSignatures
    constructor
    · intro h
      rcases confirmLoop_cases methods (exactVersionMatched methods) order with hc | ⟨v, hc⟩
      · rw [hc] at h
        exact absurd h Bool.false_ne_true
      · exact ⟨v, (confirmLoop_true _ _ _ _ hc).2⟩
    · rintro ⟨v, hv⟩
      rcases confirmLoop_cases methods (exactVersionMatched methods) order with hc | ⟨w, hc⟩
      · have hmem : v ∈ order :=
          (mem_order_of_iterationOrder order methods horder v).2
            (mem_versionKeys_of_mapGet methods v true hv.1)
        exact absurd hv ((confirmLoop_unknown_iff _ _ _).1 hc v hmem)
      · rw [hc]
  refine ⟨main, ?_, ?_⟩
  · intro order1 order2 methods h1 h2
    rw [Bool.eq_iff_iff, main order1 methods h1, main order2 methods h2]
  · intro order methods h
    unfold BytecodeMatchesPartialSignatures at h ⊢
    rcases confirmLoop_cases methods (exactVersionMatched methods) order with hc | ⟨w, hc⟩
    · rw [hc]
    · rw [hc] at h
      exact absurd h.symm Bool.false_ne_true

set_option maxRecDepth 100000 in
theorem matched_flag_independent_of_order_witness :
    (BytecodeMatchesPartialSignatures
        ["2.12.2", "2.9.0-2.14.1", "2.16.0", "2.15.0", "2.17.0", "2.8.2", "2.1-2.8.1"]
        classOfTwoVersions).2
      = (BytecodeMatchesPartialSignatures versionKeys classOfTwoVersions).2 ∧
    BytecodeMatchesPartialSignatures
        ["2.12.2", "2.9.0-2.14.1", "2.16.0", "2.15.0", "2.17.0", "2.8.2", "2.1-2.8.1"]
        classOfTwoVersions
      ≠ BytecodeMatchesPartialSignatures versionKeys classOfTwoVersions :=
  ⟨matched_flag_independent_of_order.2.1
      ["2.12.2", "2.9.0-2.14.1", "2.16.0", "2.15.0", "2.17.0", "2.8.2", "2.1-2.8.1"]
      versionKeys classOfTwoVersions (by decide) (by decide), by decide⟩

/-! ## Partial rules that exclude each other -/

theorem endsCompatible_of_satisfies (r1 r2 : partialMethodMatchSignature) (m : List Byte)
    (h1 : Satisfies r1 m) (h2 : Satisfies r2 m) : endsCompatible r1 r2 = true := by
  have p1 : r1.Prefix <+: m := h1.2.1 ▸ List.take_prefix _ _
  have p2 : r2.Prefix <+: m := h2.2.1 ▸ List.take_prefix _ _
  have s1 : r1.Suffix <:+ m := h1.2.2 ▸ List.drop_suffix _ _
  have s2 : r2.Suffix <:+ m := h2.2.2 ▸ List.drop_suffix _ _
  unfold endsCompatible
  rw [Bool.and_eq_true, Bool.or_eq_true, Bool.or_eq_true, List.isPrefixOf_iff_prefix,
    List.isPrefixOf_iff_prefix, List.isSuffixOf_iff_suffix, List.isSuffixOf_iff_suffix]
  exact ⟨ List.prefix_or_prefix_of_prefix p1 p2, List.suffix_or_suffix_of_suffix s1 s2⟩

/-- In every embedded signature, any two rules at different places have ends that exclude
each other. -/
theorem embedded_rules_ends_exclude :
    ∀ e ∈ partialBytecodeSignatures,
      e.2.PartialMatches.Pairwise (fun r1 r2 => endsCompatible r1 r2 = false) := by
  decide

theorem embedded_rules_exclude (e : String × partialBytecodeSignature)
    (he : e ∈ partialBytecodeSignatures) :
    e.2.PartialMatches.Pairwise
      (fun r1 r2 => ∀ m : List Byte, ¬ (Satisfies r1 m ∧ Satisfies r2 m)) := by
  refine (embedded_rules_ends_exclude e he).imp ?_
  intro r1 r2 hends m hm
  rw [endsCompatible_of_satisfies r1 r2 m hm.1 hm.2] at hends
  exact absurd hends (by decide)

theorem partialMatchesLoopTracked_cons (methods : List (List Byte))
    (r : partialMethodMatchSignature) (rest : List partialMethodMatchSignature)
    (mi : List Bool) :
    partialMatchesLoopTracked methods (r :: rest) mi
      = match scanMethods (partialMatchTest r) mi methods 0 with
        | none => false
        | some k => partialMatchesLoopTracked methods rest (mi.set k true) := rfl

/-- While the marks sit only on methods that satisfy a rule already handled, and no method
satisfies two of the rules, keeping the tracker changes nothing. -/
theorem partialMatchesLoopTracked_eq (methods : List (List Byte))
    (rules done : List partialMethodMatchSignature) (mi : List Bool)
    (hinv : ∀ j, mi.getD j false = true →
      ∃ m, methods[j]? = some m ∧ ∃ r' ∈ done, Satisfies r' m)
    (hpair : rules.Pairwise
      (fun r1 r2 => ∀ m : List Byte, ¬ (Satisfies r1 m ∧ Satisfies r2 m)))
    (hdone : ∀ r ∈ rules, ∀ r' ∈ done, ∀ m : List Byte, ¬ (Satisfies r' m ∧ Satisfies r m)) :
    partialMatchesLoopTracked methods rules mi = partialMatchesLoop methods rules := by
  induction rules generalizing done mi with
  | nil => rfl
  | cons r rest ih =>
    rw [partialMatchesLoopTracked_cons, partialMatchesLoop_cons]
    rw [List.pairwise_cons] at hpair
    have hnone : scanMethods (partialMatchTest r) mi methods 0 = none ↔
        scanMethods (partialMatchTest r) (List.replicate methods.length false) methods 0
          = none := by
      rw [scanMethods_eq_none_iff, scanMethods_eq_none_iff]
      constructor
      · intro h j m hj
        rcases h j m hj with hm | hm
        · right
          obtain ⟨m', hm', r', hr', hs⟩ := hinv _ hm
          rw [Nat.zero_add, hj, Option.some.injEq] at hm'
          subst hm'
          rw [← Bool.not_eq_true, partialMatchTest_iff]
          intro hsat
          exact hdone r (List.mem_cons_self _ _) r' hr' m ⟨hs, hsat⟩
        · exact Or.inr hm
      · intro h j m hj
        rcases h j m hj with hm | hm
        · rw [getD_replicate_false] at hm
          exact absurd hm Bool.false_ne_true
        · exact Or.inr hm
    cases hs : scanMethods (partialMatchTest r) mi methods 0 with
    | none =>
      rw [hnone.1 hs]
    | some k =>
      cases hf : scanMethods (partialMatchTest r) (List.replicate methods.length false)
          methods 0 with
      | none => rw [hnone.2 hf] at hs; exact absurd hs (by simp)
      | some k' =>
        show partialMatchesLoopTracked methods rest (mi.set k true)
          = partialMatchesLoop methods rest
        obtain ⟨_, _, m, hm, ht⟩ := scanMethods_eq_some _ _ _ _ _ hs
        rw [Nat.sub_zero] at hm
        apply ih (r :: done)
        · intro j hj
          rw [List.getD_eq_getElem?_getD, List.getElem?_set] at hj
          by_cases hkj : k = j
          · subst hkj
            exact ⟨m, hm, r, List.mem_cons_self _ _, (partialMatchTest_iff _ _).1 ht⟩
          · rw [if_neg hkj, ← List.getD_eq_getElem?_getD] at hj
            obtain ⟨m', hm', r', hr', hs'⟩ := hinv j hj
            exact ⟨m', hm', r', List.mem_cons_of_mem _ hr', hs'⟩
        · exact hpair.2
        · intro r2 hr2 r' hr' m'
          rcases List.mem_cons.1 hr' with h | h
          · rw [h]
            exact hpair.1 r2 hr2 m'
          · exact hdone r2 (List.mem_cons_of_mem _ hr2) r' h m'

/-- Rules that exclude each other and each have a satisfying method claim pairwise
different methods. -/
theorem distinctAssignment_of_exclusive (methods : List (List Byte))
    (rules : List partialMethodMatchSignature)
    (hpair : rules.Pairwise
      (fun r1 r2 => ∀ m : List Byte, ¬ (Satisfies r1 m ∧ Satisfies r2 m)))
    (hall : ∀ rule ∈ rules, ∃ m ∈ methods, Satisfies rule m) :
    ∃ assign : List Nat, assign.Nodup ∧
      List.Forall₂ (fun rule i => ∃ m, methods[i]? = some m ∧ Satisfies rule m) rules assign ∧
      ∀ i ∈ assign, ∃ rule ∈ rules, ∃ m, methods[i]? = some m ∧ Satisfies rule m := by
  induction rules with
  | nil => exact ⟨[], List.nodup_nil, List.Forall₂.nil, fun i hi => absurd hi (List.not_mem_nil _)⟩
  | cons r rest ih =>
    rw [List.pairwise_cons] at hpair
    obtain ⟨assign, hnd, hf, hback⟩ :=
      ih hpair.2 (fun rule hr => hall rule (List.mem_cons_of_mem _ hr))
    obtain ⟨m, hm, hsat⟩ := hall r (List.mem_cons_self _ _)
    obtain ⟨i, hi⟩ := List.getElem?_of_mem hm
    refine ⟨i :: assign, List.nodup_cons.2 ⟨?_, hnd⟩, List.Forall₂.cons ⟨m, hi, hsat⟩ hf, ?_⟩
    · intro hmem
      obtain ⟨rule, hrule, m', hm', hsat'⟩ := hback i hmem
      rw [hi, Option.some.injEq] at hm'
      subst hm'
      exact hpair.1 rule hrule m ⟨hsat, hsat'⟩
    · intro j hj
      rcases List.mem_cons.1 hj with h | h
      · exact ⟨r, List.mem_cons_self _ _, m, h ▸ hi, hsat⟩
      · obtain ⟨rule, hrule, hx⟩ := hback j h
        exact ⟨rule, List.mem_cons_of_mem _ hrule, hx⟩

theorem partialBytecodeSignaturesAt_mem (v : String)
    (hv : v ∈ mapKeys partialBytecodeSignatures) :
    (v, partialBytecodeSignaturesAt v) ∈ partialBytecodeSignatures := by
  have hex : ∀ (tbl : List (String × partialBytecodeSignature)), v ∈ mapKeys tbl →
      ∃ sig, mapGet tbl v = some sig := by
    intro tbl
    induction tbl with
    | nil => intro h; exact absurd h (List.not_mem_nil _)
    | cons e rest ih =>
      intro h
      obtain ⟨k0, s0⟩ := e
      by_cases hk : k0 = v
      · exact ⟨s0, by rw [mapGet, if_pos hk]⟩
      · have hrest : v ∈ mapKeys rest := by
          unfold mapKeys at h ⊢
          rw [List.map_cons, List.mem_cons] at h
          rcases h with h | h
          · exact absurd h.symm hk
          · exact h
        obtain ⟨sig, hsig⟩ := ih hrest
        exact ⟨sig, by rw [mapGet, if_neg hk, hsig]⟩
  obtain ⟨sig, hsig⟩ := hex partialBytecodeSignatures hv
  have hat : partialBytecodeSignaturesAt v = sig := by
    unfold partialBytecodeSignaturesAt
    rw [hsig]
    rfl
  rw [hat]
  exact mapGet_mem _ _ _ hsig

/-- C15: for every key `v` of the embedded `partialBytecodeSignatures`, no byte sequence
satisfies two different rules of `partialBytecodeSignatures[v]`; therefore
`partialSignatureMatches`, which makes its tracker anew for each rule, returns on
`partialBytecodeSignatures[v]` what the variant with one tracker returns, and a confirmed
version has pairwise different claiming methods. -/
theorem embedded_signatures_need_no_tracker :
    (∀ v ∈ mapKeys partialBytecodeSignatures,
      ∀ r1 ∈ (partialBytecodeSignaturesAt v).PartialMatches,
      ∀ r2 ∈ (partialBytecodeSignaturesAt v).PartialMatches,
      r1 ≠ r2 → ∀ m : List Byte, ¬ (Satisfies r1 m ∧ Satisfies r2 m)) ∧
    (∀ v ∈ mapKeys partialBytecodeSignatures, ∀ methods : List (List Byte),
      partialSignatureMatches methods (partialBytecodeSignaturesAt v)
        = partialSignatureMatchesTracked methods (partialBytecodeSignaturesAt v)) ∧
    (∀ v ∈ mapKeys partialBytecodeSignatures, ∀ methods : List (List Byte),
      partialSignatureMatches methods (partialBytecodeSignaturesAt v) = true →
      DistinctAssignment methods (partialBytecodeSignaturesAt v).PartialMatches) := by
  have hexcl : ∀ v ∈ mapKeys partialBytecodeSignatures,
      (partialBytecodeSignaturesAt v).PartialMatches.Pairwise
        (fun r1 r2 => ∀ m : List Byte, ¬ (Satisfies r1 m ∧ Satisfies r2 m)) :=
    fun v hv => embedded_rules_exclude _ (partialBytecodeSignaturesAt_mem v hv)
  refine ⟨?_, ?_, ?_⟩
  · intro v hv r1 h1 r2 h2 hne
    have hsymm : Symmetric
        (fun r1 r2 : partialMethodMatchSignature =>
          ∀ m : List Byte, ¬ (Satisfies r1 m ∧ Satisfies r2 m)) :=
      fun a b h m hm => h m ⟨hm.2, hm.1⟩
    exact (hexcl v hv).forall hsymm h1 h2 hne
  · intro v hv methods
    unfold partialSignatureMatches partialSignatureMatchesTracked
    rw [partialMatchesLoopTracked_eq methods (partialBytecodeSignaturesAt v).PartialMatches [] _ _
      (hexcl v hv) (fun r _ r' hr' => absurd hr' (List.not_mem_nil _))]
    intro j hj
    rw [getD_replicate_false] at hj
    exact absurd hj Bool.false_ne_true
  · intro v hv methods h
    obtain ⟨assign, hnd, hf, _⟩ := distinctAssignment_of_exclusive methods
      (partialBytecodeSignaturesAt v).PartialMatches (hexcl v hv)
      ((partialSignatureMatches_iff _ _).1 h)
    exact ⟨assign, hnd, hf⟩

set_option maxRecDepth 100000 in
theorem embedded_signatures_need_no_tracker_witness :
    partialSignatureMatchesTracked partialMethods_2_1 (partialBytecodeSignaturesAt "2.1-2.8.1")
      = true ∧
    DistinctAssignment partialMethods_2_1 (partialBytecodeSignaturesAt "2.1-2.8.1").PartialMatches :=
  ⟨(embedded_signatures_need_no_tracker.2.1 "2.1-2.8.1" (by decide)
      partialMethods_2_1).symm.trans (by decide),
    embedded_signatures_need_no_tracker.2.2 "2.1-2.8.1" (by decide) partialMethods_2_1
      (by decide)⟩

/-! ## The claims of the exact pass -/

theorem exactPassClaims_cons (methods : List (List Byte)) (r : exactMatch)
    (rest : List exactMatch) (mi : List Bool) :
    exactPassClaims methods (r :: rest) mi
      = scanMethods (fun methodBytecode => decide (bytesCompare r.Match methodBytecode = 0))
          mi methods 0 ::
        exactPassClaims methods rest (markMatched mi
          (scanMethods (fun methodBytecode => decide (bytesCompare r.Match methodBytecode = 0))
            mi methods 0)) := rfl

/-- The claims are those of `exactPass`: its map records, rule after rule, whether the rule
has a claim, and its tracker holds the marks of the claims. -/
theorem exactPass_eq_claims (methods : List (List Byte)) (rules : List exactMatch)
    (evm : List (String × Bool)) (mi : List Bool) :
    exactPass methods rules (evm, mi)
      = (recordClaims rules (exactPassClaims methods rules mi) evm,
         (exactPassClaims methods rules mi).foldl markMatched mi) := by
  induction rules generalizing evm mi with
  | nil => rfl
  | cons r rest ih =>
    rw [exactPass_cons, ih, exactPassClaims_cons]
    rfl

theorem scanMethods_eq_some_min (test : List Byte → Bool) (mi : List Bool)
    (methods : List (List Byte)) (i k : Nat) (h : scanMethods test mi methods i = some k) :
    ∀ j m, methods[j]? = some m → i + j < k →
      mi.getD (i + j) false = true ∨ test m = false := by
  induction methods generalizing i with
  | nil => simp [scanMethods] at h
  | cons x rest ih =>
    rw [scanMethods_cons] at h
    intro j m hj hlt
    have hstep : scanMethods test mi rest (i + 1) = some k →
        mi.getD i false = true ∨ test x = false →
        mi.getD (i + j) false = true ∨ test m = false := by
      intro hrest hx
      cases j with
      | zero =>
        rw [List.getElem?_cons_zero, Option.some.injEq] at hj
        subst hj
        exact hx
      | succ j' =>
        rw [List.getElem?_cons_succ] at hj
        have := ih (i + 1) hrest j' m hj (by omega)
        rwa [show i + 1 + j' = i + (j' + 1) by omega] at this
    by_cases hm : mi.getD i false = true
    · rw [if_pos hm] at h
      exact hstep h (Or.inl hm)
    · rw [if_neg hm] at h
      by_cases ht : test x = true
      · rw [if_pos ht, Option.some.injEq] at h
        omega
      · rw [if_neg ht] at h
        exact hstep h (Or.inr (Bool.eq_false_iff.2 ht))

theorem markMatched_length (mi : List Bool) (c : Option Nat) :
    (markMatched mi c).length = mi.length := by
  cases c with
  | none => rfl
  | some k => exact List.length_set _ _ _

theorem markMatched_getD (mi : List Bool) (c : Option Nat) (x : Nat)
    (hc : ∀ k, c = some k → k < mi.length) :
    (markMatched mi c).getD x false = true ↔ mi.getD x false = true ∨ c = some x := by
  cases c with
  | none =>
    show mi.getD x false = true ↔ _
    constructor
    · exact Or.inl
    · rintro (h | h)
      · exact h
      · exact absurd h (by simp)
  | some k =>
    have hk := hc k rfl
    show (mi.set k true).getD x false = true ↔ _
    rw [List.getD_eq_getElem?_getD, List.getElem?_set]
    by_cases hkx : k = x
    · subst hkx
      rw [if_pos rfl, if_pos hk]
      exact ⟨fun _ => Or.inr rfl, fun _ => rfl⟩
    · rw [if_neg hkx, ← List.getD_eq_getElem?_getD]
      constructor
      · exact Or.inl
      · rintro (h | h)
        · exact h
        · exact absurd (Option.some.inj h) hkx

theorem exact_test_iff (pattern m : List Byte) :
    decide (bytesCompare pattern m = 0) = true ↔ pattern = m := by
  rw [decide_eq_true_iff, bytesCompare_eq_zero_iff]

/-- What each rule claims, for any list of rules and any tracker as long as the method
list: the lowest index that is neither marked nor claimed by an earlier rule and holds the
rule's pattern; it claims nothing only if there is no such index. -/
theorem exactPassClaims_spec (methods : List (List Byte)) (rules : List exactMatch)
    (mi : List Bool) (hlen : mi.length = methods.length) (n : Nat) (r : exactMatch)
    (c : Option Nat) (hr : rules[n]? = some r)
    (hc : (exactPassClaims methods rules mi)[n]? = some c) :
    (∀ k, c = some k →
      methods[k]? = some r.Match ∧ mi.getD k false = false ∧
      some k ∉ (exactPassClaims methods rules mi).take n ∧
      ∀ j, j < k → methods[j]? = some r.Match →
        mi.getD j false = true ∨ some j ∈ (exactPassClaims methods rules mi).take n) ∧
    (c = none → ∀ j, methods[j]? = some r.Match →
      mi.getD j false = true ∨ some j ∈ (exactPassClaims methods rules mi).take n) := by
  induction rules generalizing mi n with
  | nil => simp at hr
  | cons r0 rest ih =>
    rw [exactPassClaims_cons] at hc ⊢
    have hbound : ∀ k, scanMethods (fun methodBytecode =>
          decide (bytesCompare r0.Match methodBytecode = 0)) mi methods 0 = some k →
        k < mi.length := by
      intro k hk
      obtain ⟨_, _, m, hm, _⟩ := scanMethods_eq_some _ _ _ _ _ hk
      rw [Nat.sub_zero] at hm
      rw [hlen]
      by_contra hge
      rw [List.getElem?_eq_none (Nat.le_of_not_lt hge)] at hm
      exact absurd hm (by simp)
    cases n with
    | zero =>
      rw [List.getElem?_cons_zero, Option.some.injEq] at hr hc
      subst hr
      rw [List.take_zero]
      constructor
      · intro k hk
        rw [← hc] at hk
        obtain ⟨_, hmk, m, hm, ht⟩ := scanMethods_eq_some _ _ _ _ _ hk
        rw [Nat.sub_zero] at hm
        have hpm : r0.Match = m := (exact_test_iff _ _).1 ht
        refine ⟨hpm ▸ hm, hmk, List.not_mem_nil _, ?_⟩
        intro j hj hmj
        rcases scanMethods_eq_some_min _ _ _ _ _ hk j _ hmj (by omega) with h | h
        · rw [Nat.zero_add] at h
          exact Or.inl h
        · rw [(exact_test_iff _ _).2 rfl] at h
          exact absurd h (by decide)
      · intro hnone j hmj
        rw [← hc] at hnone
        rcases (scanMethods_eq_none_iff _ _ _ _).1 hnone j _ hmj with h | h
        · rw [Nat.zero_add] at h
          exact Or.inl h
        · rw [(exact_test_iff _ _).2 rfl] at h
          exact absurd h (by decide)
    | succ n' =>
      rw [List.getElem?_cons_succ] at hr hc
      rw [List.take_succ_cons]
      have hlen' : (markMatched mi (scanMethods (fun methodBytecode =>
          decide (bytesCompare r0.Match methodBytecode = 0)) mi methods 0)).length
            = methods.length := by
        rw [markMatched_length, hlen]
      obtain ⟨h1, h2⟩ := ih _ hlen' n' hr hc
      have hconv : ∀ x, (markMatched mi (scanMethods (fun methodBytecode =>
            decide (bytesCompare r0.Match methodBytecode = 0)) mi methods 0)).getD x false
              = true ↔
          mi.getD x false = true ∨ scanMethods (fun methodBytecode =>
            decide (bytesCompare r0.Match methodBytecode = 0)) mi methods 0 = some x :=
        fun x => markMatched_getD _ _ x hbound
      constructor
      · intro k hk
        obtain ⟨a1, a2, a3, a4⟩ := h1 k hk
        have hnot : ¬ (mi.getD k false = true ∨ scanMethods (fun methodBytecode =>
            decide (bytesCompare r0.Match methodBytecode = 0)) mi methods 0 = some k) := by
          rw [← hconv, a2]
          exact Bool.false_ne_true
        refine ⟨a1, Bool.eq_false_iff.2 (fun h => hnot (Or.inl h)), ?_, ?_⟩
        · intro hmem
          rcases List.mem_cons.1 hmem with h | h
          · exact hnot (Or.inr h.symm)
          · exact a3 h
        · intro j hj hmj
          rcases a4 j hj hmj with h | h
          · rcases (hconv j).1 h with h' | h'
            · exact Or.inl h'
            · exact Or.inr (h' ▸ List.mem_cons_self _ _)
          · exact Or.inr (List.mem_cons_of_mem _ h)
      · intro hnone j hmj
        rcases h2 hnone j hmj with h | h
        · rcases (hconv j).1 h with h' | h'
          · exact Or.inl h'
          · exact Or.inr (h' ▸ List.mem_cons_self _ _)
        · exact Or.inr (List.mem_cons_of_mem _ h)

/-- C16: in the exact pass of `BytecodeMatchesPartialSignatures` every rule ends with at
most one claimed index; a claimed index holds a method equal to the rule's pattern, is not
claimed by an earlier rule, and every lower index holding the pattern is claimed by an
earlier rule; a rule claims nothing only when every index holding its pattern is claimed by
an earlier rule; two different rules never claim the same index. The claims are those of the
loop of the function: its map and its tracker are the ones the claims give. -/
theorem exact_pass_claims_lowest_unclaimed :
    (∀ (methods : List (List Byte)) (n : Nat) (r : exactMatch) (c : Option Nat),
      exactMatches[n]? = some r → (exactClaims methods)[n]? = some c →
      (∀ k, c = some k →
        methods[k]? = some r.Match ∧ some k ∉ (exactClaims methods).take n ∧
        ∀ j, j < k → methods[j]? = some r.Match → some j ∈ (exactClaims methods).take n) ∧
      (c = none → ∀ j, methods[j]? = some r.Match → some j ∈ (exactClaims methods).take n)) ∧
    (∀ (methods : List (List Byte)) (n1 n2 k : Nat), n1 < n2 →
      (exactClaims methods)[n1]? = some (some k) →
      (exactClaims methods)[n2]? ≠ some (some k)) ∧
    (∀ methods : List (List Byte),
      (exactClaims methods).length = exactMatches.length ∧
      exactPass methods exactMatches ([], List.replicate methods.length false)
        = (recordClaims exactMatches (exactClaims methods) [],
           (exactClaims methods).foldl markMatched (List.replicate methods.length false))) := by
  have hlenClaims : ∀ (methods : List (List Byte)) (rules : List exactMatch) (mi : List Bool),
      (exactPassClaims methods rules mi).length = rules.length := by
    intro methods rules
    induction rules with
    | nil => intro mi; rfl
    | cons r rest ih =>
      intro mi
      rw [exactPassClaims_cons, List.length_cons, List.length_cons, ih]
  have main : ∀ (methods : List (List Byte)) (n : Nat) (r : exactMatch) (c : Option Nat),
      exactMatches[n]? = some r → (exactClaims methods)[n]? = some c →
      (∀ k, c = some k →
        methods[k]? = some r.Match ∧ some k ∉ (exactClaims methods).take n ∧
        ∀ j, j < k → methods[j]? = some r.Match → some j ∈ (exactClaims methods).take n) ∧
      (c = none → ∀ j, methods[j]? = some r.Match →
        some j ∈ (exactClaims methods).take n) := by
    intro methods n r c hr hc
    obtain ⟨h1, h2⟩ := exactPassClaims_spec methods exactMatches
      (List.replicate methods.length false) (List.length_replicate _ _) n r c hr hc
    constructor
    · intro k hk
      obtain ⟨a1, _, a3, a4⟩ := h1 k hk
      refine ⟨a1, a3, ?_⟩
      intro j hj hmj
      rcases a4 j hj hmj with h | h
      · rw [getD_replicate_false] at h
        exact absurd h Bool.false_ne_true
      · exact h
    · intro hnone j hmj
      rcases h2 hnone j hmj with h | h
      · rw [getD_replicate_false] at h
        exact absurd h Bool.false_ne_true
      · exact h
  refine ⟨main, ?_, ?_⟩
  · intro methods n1 n2 k hlt h1 h2
    have hn2 : n2 < exactMatches.length := by
      rw [← hlenClaims methods exactMatches (List.replicate methods.length false)]
      by_contra hge
      have : (exactClaims methods)[n2]? = none :=
        List.getElem?_eq_none (Nat.le_of_not_lt hge)
      rw [this] at h2
      exact absurd h2 (by simp)
    obtain ⟨a, _⟩ := main methods n2 exactMatches[n2] (some k)
      (List.getElem?_eq_getElem hn2) h2
    apply (a k rfl).2.1
    rw [List.mem_iff_getElem?]
    refine ⟨n1, ?_⟩
    rw [List.getElem?_take_of_lt hlt]
    exact h1
  · intro methods
    exact ⟨hlenClaims methods exactMatches _, exactPass_eq_claims methods exactMatches [] _⟩

set_option maxRecDepth 100000 in
/-- Two methods with the pattern of the rule at index 8, and one with the pattern of the rule
at index 12: rule 8 claims index 0, rule 12 claims index 2, index 1 stays unclaimed. -/
theorem exact_pass_claims_lowest_unclaimed_witness :
    exactClaims [[0x2a, 0x2b, 0x2c, 0xb7, 0xb1], [0x2a, 0x2b, 0x2c, 0xb7, 0xb1],
        [0x12, 0xb8, 0xac]]
      = [none, none, none, none, none, none, none, none, some 0, none, none, none, some 2] ∧
    (exactClaims [[0x2a, 0x2b, 0x2c, 0xb7, 0xb1], [0x2a, 0x2b, 0x2c, 0xb7, 0xb1],
        [0x12, 0xb8, 0xac]])[12]? ≠ some (some 0) :=
  ⟨by decide,
    exact_pass_claims_lowest_unclaimed.2.1
      [[0x2a, 0x2b, 0x2c, 0xb7, 0xb1], [0x2a, 0x2b, 0x2c, 0xb7, 0xb1], [0x12, 0xb8, 0xac]]
      8 12 0 (by decide) (by decide)⟩

/-! ## The index checks never fail -/

theorem indexAt_natCast {α : Type} (s : List α) (x : Nat) : indexAt s (x : Int) = s[x]? := by
  unfold indexAt
  rw [if_pos (Int.ofNat_nonneg x), Int.toNat_ofNat]

theorem indexAt_from_end {α : Type} (s : List α) (n x : Nat) (hx : x < n) :
    indexAt s ((n : Int) - (x : Int) - 1) = s[n - x - 1]? := by
  have h : (n : Int) - (x : Int) - 1 = ((n - x - 1 : Nat) : Int) := by omega
  rw [h, indexAt_natCast]

theorem getD_eq_of_lt (s : List Byte) (x : Nat) (hx : x < s.length) : s.getD x 0 = s[x] := by
  rw [List.getD_eq_getElem?_getD, List.getElem?_eq_getElem hx, Option.getD_some]

/-- Within the lengths of both slices the prefix loop reads only valid indexes, and it ends
with `true` exactly when the slices agree on the indexes it visits. -/
theorem prefixLoopChecked_spec (pre m : List Byte) (remaining x : Nat)
    (h1 : x + remaining ≤ pre.length) (h2 : x + remaining ≤ m.length) :
    ∃ b, prefixLoopChecked pre m remaining x = some b ∧
      (b = true ↔ ∀ y, x ≤ y → y < x + remaining → pre.getD y 0 = m.getD y 0) := by
  induction remaining generalizing x with
  | zero =>
    refine ⟨true, rfl, ?_⟩
    constructor
    · intro _ y hy1 hy2
      omega
    · intro _
      rfl
  | succ k ih =>
    have hx1 : x < pre.length := by omega
    have hx2 : x < m.length := by omega
    rw [prefixLoopChecked, indexAt_natCast, indexAt_natCast, List.getElem?_eq_getElem hx1,
      List.getElem?_eq_getElem hx2]
    by_cases hne : pre[x] ≠ m[x]
    · refine ⟨false, by simp only [hne, ne_eq, not_false_eq_true, if_true], ?_⟩
      constructor
      · intro h
        exact absurd h Bool.false_ne_true
      · intro h
        have := h x (le_refl _) (by omega)
        rw [getD_eq_of_lt _ _ hx1, getD_eq_of_lt _ _ hx2] at this
        exact absurd this hne
    · obtain ⟨b, hb, hiff⟩ := ih (x + 1) (by omega) (by omega)
      refine ⟨b, by simp only [hne, if_false, hb], ?_⟩
      rw [hiff]
      have heq : pre[x] = m[x] := not_not.1 hne
      constructor
      · intro h y hy1 hy2
        by_cases hyx : y = x
        · subst hyx
          rw [getD_eq_of_lt _ _ hx1, getD_eq_of_lt _ _ hx2, heq]
        · exact h y (by omega) (by omega)
      · intro h y hy1 hy2
        exact h y (by omega) (by omega)

/-- Within the lengths of both slices the suffix loop reads only valid indexes, and it ends
with `true` exactly when the slices agree on the indexes it visits. -/
theorem suffixLoopChecked_spec (suf m : List Byte) (remaining x : Nat)
    (h1 : x + remaining ≤ suf.length) (h2 : x + remaining ≤ m.length) :
    ∃ b, suffixLoopChecked suf m remaining x = some b ∧
      (b = true ↔ ∀ y, x ≤ y → y < x + remaining →
        suf.getD (suf.length - y - 1) 0 = m.getD (m.length - y - 1) 0) := by
  induction remaining generalizing x with
  | zero =>
    refine ⟨true, rfl, ?_⟩
    constructor
    · intro _ y hy1 hy2
      omega
    · intro _
      rfl
  | succ k ih =>
    have hx1 : x < suf.length := by omega
    have hx2 : x < m.length := by omega
    have hi1 : suf.length - x - 1 < suf.length := by omega
    have hi2 : m.length - x - 1 < m.length := by omega
    rw [suffixLoopChecked, indexAt_from_end _ _ _ hx1, indexAt_from_end _ _ _ hx2,
      List.getElem?_eq_getElem hi1, List.getElem?_eq_getElem hi2]
    by_cases hne : suf[suf.length - x - 1] ≠ m[m.length - x - 1]
    · refine ⟨false, by simp only [hne, ne_eq, not_false_eq_true, if_true], ?_⟩
      constructor
      · intro h
        exact absurd h Bool.false_ne_true
      · intro h
        have := h x (le_refl _) (by omega)
        rw [getD_eq_of_lt _ _ hi1, getD_eq_of_lt _ _ hi2] at this
        exact absurd this hne
    · obtain ⟨b, hb, hiff⟩ := ih (x + 1) (by omega) (by omega)
      refine ⟨b, by simp only [hne, if_false, hb], ?_⟩
      rw [hiff]
      have heq : suf[suf.length - x - 1] = m[m.length - x - 1] := not_not.1 hne
      constructor
      · intro h y hy1 hy2
        by_cases hyx : y = x
        · subst hyx
          rw [getD_eq_of_lt _ _ hi1, getD_eq_of_lt _ _ hi2, heq]
        · exact h y (by omega) (by omega)
      · intro h y hy1 hy2
        exact h y (by omega) (by omega)

/-- The checked test of a method against a partial rule never fails and gives the result
of `partialMatchTest`: the length guard comes first. -/
theorem partialMatchTestChecked_eq (rule : partialMethodMatchSignature) (m : List Byte) :
    partialMatchTestChecked rule m = some (partialMatchTest rule m) := by
  unfold partialMatchTestChecked partialMatchTest
  by_cases hlen : m.length < rule.Prefix.length + rule.Suffix.length
  · rw [if_pos hlen, if_pos hlen]
  · rw [if_neg hlen, if_neg hlen]
    obtain ⟨b1, hb1, hiff1⟩ := prefixLoopChecked_spec rule.Prefix m rule.Prefix.length 0
      (by omega) (by omega)
    obtain ⟨b2, hb2, hiff2⟩ := suffixLoopChecked_spec rule.Suffix m rule.Suffix.length 0
      (by omega) (by omega)
    have e1 : ((List.range rule.Prefix.length).all fun x =>
        decide (rule.Prefix.getD x 0 = m.getD x 0)) = b1 := by
      rw [Bool.eq_iff_iff, hiff1, List.all_eq_true]
      constructor
      · intro h y _ hy
        exact of_decide_eq_true (h y (List.mem_range.2 (by omega)))
      · intro h y hy
        exact decide_eq_true (h y (Nat.zero_le _) (by have := List.mem_range.1 hy; omega))
    have e2 : ((List.range rule.Suffix.length).all fun x =>
        decide (rule.Suffix.getD (rule.Suffix.length - x - 1) 0
          = m.getD (m.length - x - 1) 0)) = b2 := by
      rw [Bool.eq_iff_iff, hiff2, List.all_eq_true]
      constructor
      · intro h y _ hy
        exact of_decide_eq_true (h y (List.mem_range.2 (by omega)))
      · intro h y hy
        exact decide_eq_true (h y (Nat.zero_le _) (by have := List.mem_range.1 hy; omega))
    rw [hb1, hb2]
    simp only [e1, e2]
    cases b1 <;> simp

theorem getD_eq_getElem_bool (mi : List Bool) (i : Nat) (hi : i < mi.length) :
    mi.getD i false = mi[i] := by
  rw [List.getD_eq_getElem?_getD, List.getElem?_eq_getElem hi, Option.getD_some]

/-- With a tracker that reaches every index visited and a test that never fails, the
checked method loop never fails and gives the result of `scanMethods`. -/
theorem scanMethodsChecked_eq (test : List Byte → Option Bool) (t : List Byte → Bool)
    (htest : ∀ m, test m = some (t m)) (mi : List Bool) (methods : List (List Byte)) (i : Nat)
    (hlen : i + methods.length ≤ mi.length) :
    scanMethodsChecked test mi methods i = some (scanMethods t mi methods i) := by
  induction methods generalizing i with
  | nil => rfl
  | cons x rest ih =>
    have hi : i < mi.length := by
      rw [List.length_cons] at hlen
      omega
    have hrest := ih (i + 1) (by rw [List.length_cons] at hlen; omega)
    rw [scanMethodsChecked, indexAt_natCast, List.getElem?_eq_getElem hi, scanMethods_cons,
      getD_eq_getElem_bool mi i hi, htest x]
    cases hb : mi[i] with
    | true => simpa using hrest
    | false =>
      cases ht : t x with
      | true => simp
      | false => simpa using hrest

theorem markMatchedChecked_eq (mi : List Bool) (c : Option Nat)
    (hc : ∀ k, c = some k → k < mi.length) :
    markMatchedChecked mi c = some (markMatched mi c) := by
  cases c with
  | none => rfl
  | some k =>
    show (if k < mi.length then some (mi.set k true) else none) = some (mi.set k true)
    rw [if_pos (hc k rfl)]

theorem scanMethods_lt_length (test : List Byte → Bool) (mi : List Bool)
    (methods : List (List Byte)) (k : Nat) (h : scanMethods test mi methods 0 = some k) :
    k < methods.length := by
  obtain ⟨_, _, m, hm, _⟩ := scanMethods_eq_some _ _ _ _ _ h
  rw [Nat.sub_zero] at hm
  by_contra hge
  rw [List.getElem?_eq_none (Nat.le_of_not_lt hge)] at hm
  exact absurd hm (by simp)

theorem exactPassChecked_eq (methods : List (List Byte)) (rules : List exactMatch)
    (evm : List (String × Bool)) (mi : List Bool) (hlen : mi.length = methods.length) :
    exactPassChecked methods rules (evm, mi) = some (exactPass methods rules (evm, mi)) := by
  induction rules generalizing evm mi with
  | nil => rfl
  | cons r rest ih =>
    have hscan := scanMethodsChecked_eq
      (fun methodBytecode => some (decide (bytesCompare r.Match methodBytecode = 0)))
      (fun methodBytecode => decide (bytesCompare r.Match methodBytecode = 0))
      (fun _ => rfl) mi methods 0 (by rw [hlen]; omega)
    have hmark := markMatchedChecked_eq mi
      (scanMethods (fun methodBytecode => decide (bytesCompare r.Match methodBytecode = 0))
        mi methods 0)
      (fun k hk => hlen ▸ scanMethods_lt_length _ _ _ k hk)
    rw [exactPassChecked, hscan]
    simp only [hmark]
    rw [ih _ _ (by rw [markMatched_length, hlen]), exactPass_cons]

theorem partialMatchesLoopChecked_eq (methods : List (List Byte))
    (rules : List partialMethodMatchSignature) :
    partialMatchesLoopChecked methods rules = some (partialMatchesLoop methods rules) := by
  induction rules with
  | nil => rfl
  | cons r rest ih =>
    have hscan := scanMethodsChecked_eq (partialMatchTestChecked r) (partialMatchTest r)
      (partialMatchTestChecked_eq r) (List.replicate methods.length false) methods 0
      (by rw [List.length_replicate]; omega)
    rw [partialMatchesLoopChecked, partialMatchesLoop_cons]
    simp only [hscan]
    cases hs : scanMethods (partialMatchTest r) (List.replicate methods.length false)
        methods 0 with
    | none => rfl
    | some k =>
      have hmark := markMatchedChecked_eq (List.replicate methods.length false) (some k)
        (fun k' hk' => by
          rw [List.length_replicate]
          exact scanMethods_lt_length _ _ _ k' (hk' ▸ hs))
      simp only [hmark, ih]

theorem confirmLoopChecked_eq (methods : List (List Byte)) (evm : List (String × Bool))
    (order : List String) :
    confirmLoopChecked methods evm order = some (confirmLoop methods evm order) := by
  induction order with
  | nil => rfl
  | cons v rest ih =>
    have hp : partialSignatureMatchesChecked methods (partialBytecodeSignaturesAt v)
        = some (partialSignatureMatches methods (partialBytecodeSignaturesAt v)) :=
      partialMatchesLoopChecked_eq methods _
    rw [confirmLoopChecked, confirmLoop, hp, ih]
    cases mapGet evm v with
    | none => rfl
    | some b =>
      cases b with
      | false => rfl
      | true =>
        cases partialSignatureMatches methods (partialBytecodeSignaturesAt v) <;> rfl

/-- C19: `partialSignatureMatches` and `BytecodeMatchesPartialSignatures` are total and read
no index out of range: with every access `methodBytecode[x]`, `Prefix[x]`,
`Suffix[suffixLength-x-1]`, `methodBytecode[bytecodeLength-x-1]` and `matchedIndexes[i]`
checked as the run time checks it, they return, for every method list (empty methods
included), every partial signature (empty prefix or suffix included) and every order of
visit, the result of the functions without checks; the test of one method never fails
because the length guard comes before the loops. -/
theorem index_checks_never_fail :
    (∀ (rule : partialMethodMatchSignature) (method : List Byte),
      partialMatchTestChecked rule method = some (partialMatchTest rule method)) ∧
    (∀ (methods : List (List Byte)) (sig : partialBytecodeSignature),
      partialSignatureMatchesChecked methods sig
        = some (partialSignatureMatches methods sig)) ∧
    (∀ (order : List String) (methods : List (List Byte)),
      BytecodeMatchesPartialSignaturesChecked order methods
        = some (BytecodeMatchesPartialSignatures order methods)) := by
  refine ⟨partialMatchTestChecked_eq, fun methods sig => partialMatchesLoopChecked_eq methods _,
    ?_⟩
  intro order methods
  unfold BytecodeMatchesPartialSignaturesChecked BytecodeMatchesPartialSignatures
    exactVersionMatched
  rw [exactPassChecked_eq methods exactMatches [] _ (List.length_replicate _ _)]
  exact confirmLoopChecked_eq methods _ order

/-- The checks are real: without the length guard a prefix or a suffix longer than the
method reads out of range. -/
theorem index_checks_detect_out_of_range :
    prefixLoopChecked [0xbb, 0x59] [0xbb] 2 0 = none ∧
    suffixLoopChecked [0xb3, 0xb1] [0xb1] 2 0 = none ∧
    partialMatchTestChecked { Prefix := [0xbb, 0x59], Suffix := [0xb3, 0xb1] } [0xbb] = some false ∧
    markMatchedChecked [false] (some 1) = none := by
  decide

end Log4jSniffer
